import Mathlib

/-!  Verification of the ProcureFlow chatbot core (`src/procureflow.py`).

The development shallowly embeds the retrieval-and-ranking core of the
program: the difflib `SequenceMatcher` similarity scorer (as called by
`best_match` with `isjunk = None` and the default `autojunk = True`),
the `best_match` retriever, the `qa_context` prompt template, the
single-quote escaping used when interpolating the prompt into the
Cortex SQL query, the `check_cortex` probe, the per-turn chat flow, and
the `load_qa` normalization.  Python strings are modelled as lists of
characters; the float similarity ratio is modelled as a rational number;
`str.lower` is modelled on ASCII letters (all concrete inputs used here
are ASCII).  Fallible operations return `Except`.
-/

namespace ProcureFlow

/-- Python strings, modelled as lists of characters. -/
abbrev Str := List Char

/-- The single-quote character (code point 39). -/
def sq : Char := Char.ofNat 39

/-- Python `str.isspace` restricted to the ASCII whitespace characters:
space, tab, newline, carriage return, vertical tab, form feed. -/
def pyIsSpace (c : Char) : Bool :=
  c = Char.ofNat 32 || c = Char.ofNat 9 || c = Char.ofNat 10 ||
  c = Char.ofNat 13 || c = Char.ofNat 11 || c = Char.ofNat 12

/-- Drop the trailing characters satisfying `p` (the right half of
Python `str.strip`). -/
def dropTrailing (p : Char → Bool) (l : Str) : Str :=
  (l.reverse.dropWhile p).reverse

/-- Python `str.strip()`: drop leading and trailing whitespace. -/
def pyStrip (s : Str) : Str :=
  dropTrailing pyIsSpace (s.dropWhile pyIsSpace)

/-- Python `str.lower()` (ASCII letters). -/
def pyLower (s : Str) : Str := s.map Char.toLower

/-- The query normalization `user_input.lower().strip()` from `best_match`. -/
def cleanQuery (s : Str) : Str := pyStrip (pyLower s)

/-!  difflib `SequenceMatcher`, specialized to `isjunk = None`,
`autojunk = True`, as constructed by
`SequenceMatcher(None, cleaned, q.lower())` in `best_match`. -/

/-- One step of `__chain_b`'s index building:
`b2j.setdefault(elt, []).append(i)`. -/
def addIndex : List (Char × List Nat) → Char → Nat → List (Char × List Nat)
  | [], c, i => [(c, [i])]
  | (c₀, js) :: rest, c, i =>
      if c = c₀ then (c₀, js ++ [i]) :: rest else (c₀, js) :: addIndex rest c i

/-- The `for i, elt in enumerate(b)` loop of `__chain_b`. -/
def b2jAux : List (Char × List Nat) → Str → Nat → List (Char × List Nat)
  | m, [], _ => m
  | m, c :: rest, i => b2jAux (addIndex m c i) rest (i + 1)

/-- `b2j` before the autojunk purge: maps each character of `b` to the
ascending list of its positions in `b`. -/
def buildB2j (b : Str) : List (Char × List Nat) := b2jAux [] b 0

/-- `b2j.get(x, [])` on the association list. -/
def lookupIdx : List (Char × List Nat) → Char → List Nat
  | [], _ => []
  | (c₀, js) :: rest, c => if c = c₀ then js else lookupIdx rest c

/-- difflib `__chain_b` with `isjunk = None`, `autojunk = True`: build
the position map, then (when `len(b) >= 200`) delete the popular
characters (more than `len(b) // 100 + 1` occurrences) from the map.
The pair returned is `(b2j, bjunk)`.  With `isjunk = None` the junk set
`self.bjunk` stays empty — the popular characters go to the separate
set `self.bpopular` and are only removed from `b2j`, so the extension
loops of `find_longest_match`, which test `self.bjunk` alone, never see
them as junk. -/
def chain_b (b : Str) : List (Char × List Nat) × List Char :=
  let b2j := buildB2j b
  let n := b.length
  if 200 ≤ n then
    let ntest := n / 100 + 1
    (b2j.filter (fun p => decide (p.2.length ≤ ntest)), [])
  else (b2j, [])

/-- difflib's `self.bpopular`: the characters the autojunk heuristic
deletes from `b2j` (those with more than `len(b) // 100 + 1`
occurrences, when `len(b) >= 200`).  They are not junk for the
extension loops; they are only absent from the index map. -/
def bpopular (b : Str) : List Char :=
  if 200 ≤ b.length then
    ((buildB2j b).filter
      (fun p => decide (b.length / 100 + 1 < p.2.length))).map Prod.fst
  else []

/-- Character of `s` at index `i` (all uses keep `i` in range; the
default mirrors nothing in the source and is never hit there). -/
def charAt (s : Str) (i : Nat) : Char := s.getD i (Char.ofNat 32)

/-- `j2len.get(j, default)` on the association list used by
`find_longest_match`. -/
def lookupN : List (Nat × Nat) → Nat → Option Nat
  | [], _ => none
  | (k, v) :: rest, j => if j = k then some v else lookupN rest j

/-- The length `k = j2len.get(j - 1, 0) + 1` computed by the inner loop
of `find_longest_match` at column `j`.  In Python `j - 1` is `-1` when
`j = 0`, which is never a key of `j2len`; the `j = 0` test reproduces
that lookup miss with natural-number indices. -/
def rowK (j2len : List (Nat × Nat)) (j : Nat) : Nat :=
  (if j = 0 then 0 else (lookupN j2len (j - 1)).getD 0) + 1

/-- The inner `for j in b2j.get(a[i], nothing)` loop of
`find_longest_match`: `continue` on `j < blo`, `break` on `j >= bhi`,
otherwise `newj2len[j] = k` and the best triple is replaced when
`k > bestsize`. -/
def flmRow (j2len : List (Nat × Nat)) (blo bhi i : Nat) :
    List Nat → List (Nat × Nat) → Nat × Nat × Nat →
    List (Nat × Nat) × (Nat × Nat × Nat)
  | [], new, best => (new, best)
  | j :: rest, new, best =>
      if j < blo then flmRow j2len blo bhi i rest new best
      else if bhi ≤ j then (new, best)
      else
        flmRow j2len blo bhi i rest ((j, rowK j2len j) :: new)
          (if best.2.2 < rowK j2len j then
            (i + 1 - rowK j2len j, j + 1 - rowK j2len j, rowK j2len j)
          else best)

/-- The outer `for i in range(alo, ahi)` loop of `find_longest_match`
(first argument of the recursion counts the remaining rows). -/
def flmLoop (a : Str) (b2j : List (Char × List Nat)) (blo bhi : Nat) :
    Nat → Nat → List (Nat × Nat) → Nat × Nat × Nat → Nat × Nat × Nat
  | 0, _, _, best => best
  | cnt + 1, i, j2len, best =>
      flmLoop a b2j blo bhi cnt (i + 1)
        (flmRow j2len blo bhi i (lookupIdx b2j (charAt a i)) [] best).1
        (flmRow j2len blo bhi i (lookupIdx b2j (charAt a i)) [] best).2

/-- First extension `while` of `find_longest_match`: grow the match
downwards over non-junk equal characters.  The fuel argument only
bounds the iteration count; `besti` strictly decreases, so fuel
`len(a) + len(b) + 1` is never exhausted and the loop is reproduced
exactly. -/
def extendLo (a b : Str) (junk : List Char) (alo blo : Nat) :
    Nat → Nat × Nat × Nat → Nat × Nat × Nat
  | 0, best => best
  | fuel + 1, (bi, bj, bs) =>
      if alo < bi ∧ blo < bj ∧ junk.contains (charAt b (bj - 1)) = false ∧
          charAt a (bi - 1) = charAt b (bj - 1) then
        extendLo a b junk alo blo fuel (bi - 1, bj - 1, bs + 1)
      else (bi, bj, bs)

/-- Second extension `while`: grow the match upwards over non-junk
equal characters. -/
def extendHi (a b : Str) (junk : List Char) (ahi bhi : Nat) :
    Nat → Nat × Nat × Nat → Nat × Nat × Nat
  | 0, best => best
  | fuel + 1, (bi, bj, bs) =>
      if bi + bs < ahi ∧ bj + bs < bhi ∧
          junk.contains (charAt b (bj + bs)) = false ∧
          charAt a (bi + bs) = charAt b (bj + bs) then
        extendHi a b junk ahi bhi fuel (bi, bj, bs + 1)
      else (bi, bj, bs)

/-- Third extension `while`: grow the match downwards over junk equal
characters. -/
def extendLoJunk (a b : Str) (junk : List Char) (alo blo : Nat) :
    Nat → Nat × Nat × Nat → Nat × Nat × Nat
  | 0, best => best
  | fuel + 1, (bi, bj, bs) =>
      if alo < bi ∧ blo < bj ∧ junk.contains (charAt b (bj - 1)) = true ∧
          charAt a (bi - 1) = charAt b (bj - 1) then
        extendLoJunk a b junk alo blo fuel (bi - 1, bj - 1, bs + 1)
      else (bi, bj, bs)

/-- Fourth extension `while`: grow the match upwards over junk equal
characters. -/
def extendHiJunk (a b : Str) (junk : List Char) (ahi bhi : Nat) :
    Nat → Nat × Nat × Nat → Nat × Nat × Nat
  | 0, best => best
  | fuel + 1, (bi, bj, bs) =>
      if bi + bs < ahi ∧ bj + bs < bhi ∧
          junk.contains (charAt b (bj + bs)) = true ∧
          charAt a (bi + bs) = charAt b (bj + bs) then
        extendHiJunk a b junk ahi bhi fuel (bi, bj, bs + 1)
      else (bi, bj, bs)

/-- difflib `SequenceMatcher.find_longest_match(alo, ahi, blo, bhi)`:
the dynamic-programming main loop followed by the four extension
loops. -/
def find_longest_match (a b : Str) (b2j : List (Char × List Nat))
    (junk : List Char) (alo ahi blo bhi : Nat) : Nat × Nat × Nat :=
  extendHiJunk a b junk ahi bhi (a.length + b.length + 1)
    (extendLoJunk a b junk alo blo (a.length + b.length + 1)
      (extendHi a b junk ahi bhi (a.length + b.length + 1)
        (extendLo a b junk alo blo (a.length + b.length + 1)
          (flmLoop a b2j blo bhi (ahi - alo) alo [] (alo, blo, 0)))))

/-- The recursion of `get_matching_blocks`, summed: total size of the
matching blocks found in the ranges `[alo, ahi) × [blo, bhi)`.  difflib
keeps the blocks on an explicit queue and later merges adjacent blocks;
neither changes the total size, which is all `ratio` reads.  Each
recursive call strictly shrinks `(ahi - alo) + (bhi - blo)`, so fuel
`len(a) + len(b) + 1` is never exhausted. -/
def matchesAux (a b : Str) (b2j : List (Char × List Nat))
    (junk : List Char) : Nat → Nat → Nat → Nat → Nat → Nat
  | 0, _, _, _, _ => 0
  | fuel + 1, alo, ahi, blo, bhi =>
      if (find_longest_match a b b2j junk alo ahi blo bhi).2.2 = 0 then 0
      else
        (find_longest_match a b b2j junk alo ahi blo bhi).2.2 +
          (if alo < (find_longest_match a b b2j junk alo ahi blo bhi).1 ∧
              blo < (find_longest_match a b b2j junk alo ahi blo bhi).2.1 then
            matchesAux a b b2j junk fuel alo
              (find_longest_match a b b2j junk alo ahi blo bhi).1 blo
              (find_longest_match a b b2j junk alo ahi blo bhi).2.1
          else 0) +
          (if (find_longest_match a b b2j junk alo ahi blo bhi).1 +
                (find_longest_match a b b2j junk alo ahi blo bhi).2.2 < ahi ∧
              (find_longest_match a b b2j junk alo ahi blo bhi).2.1 +
                (find_longest_match a b b2j junk alo ahi blo bhi).2.2 < bhi then
            matchesAux a b b2j junk fuel
              ((find_longest_match a b b2j junk alo ahi blo bhi).1 +
                (find_longest_match a b b2j junk alo ahi blo bhi).2.2) ahi
              ((find_longest_match a b b2j junk alo ahi blo bhi).2.1 +
                (find_longest_match a b b2j junk alo ahi blo bhi).2.2) bhi
          else 0)

/-- `sum(triple[-1] for triple in self.get_matching_blocks())`. -/
def matchesTotal (a b : Str) : Nat :=
  matchesAux a b (chain_b b).1 (chain_b b).2 (a.length + b.length + 1)
    0 a.length 0 b.length

/-- difflib `SequenceMatcher.ratio()`: `2.0 * matches / length` when
`length = len(a) + len(b)` is nonzero, and `1.0` otherwise
(`_calculate_ratio`).  The float ratio is modelled as a rational. -/
def ratio (a b : Str) : ℚ :=
  if a.length + b.length = 0 then 1
  else (2 * (matchesTotal a b : ℚ)) / (((a.length + b.length : Nat) : ℚ))

/-!  The retriever `best_match`. -/

/-- Failure of a retrieval.  The code lets the builtin `ValueError`
raised by `max(scores)` on an empty sequence escape (`valueError`); the
constructor `emptyCorpusError` names the typed error of the spec's
error taxonomy, which no code in the repository defines or raises — it
is present only so that statements about it can be written. -/
inductive RetrievalError where
  | valueError : RetrievalError
  | emptyCorpusError : RetrievalError
deriving DecidableEq

/-- Python `max` on a list of scores: `None`-free fold keeping the
first of equal elements (for numbers the value is just the maximum);
raises on the empty list. -/
def pyMax : List ℚ → Option ℚ
  | [] => none
  | x :: xs => some (xs.foldl max x)

/-- Python `list.index`: index of the first occurrence (all uses look
up an element that is present). -/
def indexOfQ : List ℚ → ℚ → Nat
  | [], _ => 0
  | x :: xs, m => if x = m then 0 else indexOfQ xs m + 1

/-- Placeholder record for the out-of-range default of `getD`; never
reached, since `best_index` is always in range. -/
def dummyRec : Str × Str := ([], [])

/-- `best_match(user_input)` over the loaded corpus `df`: normalize the
query, score every question with `SequenceMatcher(None, cleaned,
q.lower()).ratio()`, take `scores.index(max(scores))`, and return the
question, answer and maximal score.  On an empty corpus `max` raises
the builtin `ValueError`. -/
def best_match (corpus : List (Str × Str)) (user_input : Str) :
    Except RetrievalError (Str × Str × ℚ) :=
  let cleaned := cleanQuery user_input
  let scores := corpus.map (fun r => ratio cleaned (pyLower r.1))
  match pyMax scores with
  | none => .error .valueError
  | some m =>
      let best_index := indexOfQ scores m
      .ok ((corpus.getD best_index dummyRec).1,
           (corpus.getD best_index dummyRec).2, m)

/-- The similarity score `best_match` assigns to record `i` of the
corpus for a given raw query. -/
def scoreOf (corpus : List (Str × Str)) (user_input : Str) (i : Nat) : ℚ :=
  ratio (cleanQuery user_input) (pyLower (corpus.getD i dummyRec).1)

/-- The list `scores` built by the loop of `best_match`. -/
def scoresList (corpus : List (Str × Str)) (user_input : Str) : List ℚ :=
  corpus.map (fun r => ratio (cleanQuery user_input) (pyLower r.1))

/-- Instrumented version of the scoring loop of `best_match`: returns
the score list, the corpus rows as read by the loop, and the number of
scorer evaluations performed (one per row). -/
def scoresInstr (cleaned : Str) :
    List (Str × Str) → List ℚ × List (Str × Str) × Nat
  | [] => ([], [], 0)
  | r :: rest =>
      let s := ratio cleaned (pyLower r.1)
      let t := scoresInstr cleaned rest
      (s :: t.1, r :: t.2.1, t.2.2 + 1)

/-- `best_match` run through the instrumented scoring loop: the result,
the corpus rows as read, and the number of scorer evaluations. -/
def best_matchInstr (corpus : List (Str × Str)) (user_input : Str) :
    Except RetrievalError (Str × Str × ℚ) × List (Str × Str) × Nat :=
  let t := scoresInstr (cleanQuery user_input) corpus
  let res : Except RetrievalError (Str × Str × ℚ) :=
    match pyMax t.1 with
    | none => .error .valueError
    | some m =>
        .ok ((corpus.getD (indexOfQ t.1 m) dummyRec).1,
             (corpus.getD (indexOfQ t.1 m) dummyRec).2, m)
  (res, t.2.1, t.2.2)

/-!  The prompt composer `qa_context` and the score rendering. -/

/-- Python `'{:.3f}'`-style rounding scaled by 1000: round to nearest,
ties to even (the rounding of float formatting, stated on rationals). -/
def round3 (x : ℚ) : ℤ :=
  let y := x * 1000
  let f := ⌊y⌋
  let r := y - f
  if r < 1 / 2 then f else if 1 / 2 < r then f + 1
  else if f % 2 = 0 then f else f + 1

/-- The character of a decimal digit. -/
def digitChar (d : Nat) : Char := Char.ofNat (48 + d)

/-- Decimal digits of a natural number, most significant first. -/
def natDigits (n : Nat) : Str :=
  if h : n < 10 then [digitChar n]
  else natDigits (n / 10) ++ [digitChar (n % 10)]
decreasing_by
  exact Nat.div_lt_self (by omega) (by omega)

/-- The rendering `f"{score:.3f}"`: the rounded thousandths written
with exactly three digits after the point. -/
def formatQ3 (x : ℚ) : Str :=
  let n := round3 x
  let m := n.natAbs
  (if n < 0 then [Char.ofNat 45] else []) ++ natDigits (m / 1000) ++
    [Char.ofNat 46, digitChar (m % 1000 / 100), digitChar (m % 1000 / 10 % 10),
     digitChar (m % 10)]

/-- Literal segments of the `qa_context` f-string (lines 110–123 of the
source; the text between the interpolation holes, kept verbatim,
including the indentation of the triple-quoted string). -/
def ctxSeg1 : Str :=
  "\n    You are an AI assistant for a procurement office.\n\n    The closest matched FAQ entry is:\n    Question: ".toList

def ctxSeg2 : Str := "\n    Answer: ".toList

def ctxSeg3 : Str := "\n    Match confidence: ".toList

def ctxSeg4 : Str := "\n\n    User Question: ".toList

/-- The instruction sentence naming the high-confidence behaviour. -/
def refineTxt : Str :=
  "If confidence is high (>0.60), refine & expand the given answer.".toList

/-- The instruction sentence naming the low-confidence behaviour
(`you're` contains a single quote, spelled via `sq`). -/
def reasonTxt : Str :=
  "If confidence is low (<=0.60), explain that you".toList ++ [sq] ++
    "re using reasoning instead.".toList

/-- Tail segment of the template after the user question: both
confidence instructions, then the closing sentence. -/
def ctxSeg5 : Str :=
  "\n\n    ".toList ++ refineTxt ++ "\n    ".toList ++ reasonTxt ++
    "\n    Provide a clear, helpful procurement answer.\n    ".toList

/-- The f-string `qa_context` (lines 110–123): one fixed template with
four interpolation holes — matched question, matched answer, score
rendered with `:.3f`, and the raw user question. -/
def qa_context (q a : Str) (score : ℚ) (prompt : Str) : Str :=
  ctxSeg1 ++ q ++ ctxSeg2 ++ a ++ ctxSeg3 ++ formatQ3 score ++
    ctxSeg4 ++ prompt ++ ctxSeg5

/-!  Escaping and the Cortex SQL query. -/

/-- `l` starts with `pat`. -/
def startsWithL : Str → Str → Bool
  | _, [] => true
  | [], _ :: _ => false
  | c :: l, d :: pat => c = d && startsWithL l pat

/-- Python `str.replace(old, new)` for nonempty `old`: scan left to
right, replacing non-overlapping occurrences. -/
def pyReplace (l old new : Str) : Str :=
  match l with
  | [] => []
  | c :: rest =>
      if h : startsWithL (c :: rest) old = true ∧ old ≠ [] then
        new ++ pyReplace ((c :: rest).drop old.length) old new
      else c :: pyReplace rest old new
termination_by l.length
decreasing_by
  · have hold : 0 < old.length := List.length_pos.2 h.2
    simp only [List.length_drop]
    simp only [List.length_cons]
    omega
  · simp only [List.length_cons]
    omega

/-- `qa_context.replace("'", "''")` (line 135). -/
def escapeQ (s : Str) : Str := pyReplace s [sq] [sq, sq]

/-- The reverse of the escape: replace each doubled quote by a single
quote. -/
def unescapeQ (s : Str) : Str := pyReplace s [sq, sq] [sq]

/-- The doubling of quotes described by the spec, stated directly:
every single-quote character is doubled. -/
def doubleQuotes (s : Str) : Str :=
  s.flatMap (fun c => if c = sq then [sq, sq] else [c])

/-- Text of the SQL f-string (lines 132–137) before the interpolated
prompt, up to and including its opening quote. -/
def sqlSeg1 : Str :=
  "\n                        SELECT SNOWFLAKE.CORTEX.COMPLETE(\n                            ".toList ++
    [sq] ++ "mistral-large2".toList ++ [sq] ++
    ",\n                            ".toList ++ [sq]

/-- Text of the SQL f-string after the interpolated prompt, from its
closing quote on. -/
def sqlSeg2 : Str :=
  [sq] ++ "\n                        ) AS RESPONSE\n                    ".toList

/-- The SQL text interpolated by the f-string of lines 132–137 (the
escaped prompt spliced between single quotes). -/
def cortexQuery (ctx : Str) : Str := sqlSeg1 ++ escapeQ ctx ++ sqlSeg2

/-!  The probe, the chat flow, and the conversation log. -/

/-- `check_cortex()` (lines 71–79): `False` when there is no session;
otherwise probe the completion service with a minimal request and
swallow any failure into `False`. -/
def check_cortex (sessionPresent : Bool) (probe : Except Str Unit) : Bool :=
  if sessionPresent then
    match probe with
    | .ok _ => true
    | .error _ => false
  else false

/-- Role of a conversation turn. -/
inductive Role where
  | user : Role
  | assistant : Role
deriving DecidableEq

/-- One entry of `st.session_state.messages`. -/
structure Turn where
  role : Role
  content : Str
deriving DecidableEq

/-- Literal segments of the fallback f-string (line 158). -/
def fbSeg1 : Str := "**Closest Match:** ".toList

def fbSeg2 : Str := "\n\n**Answer:** ".toList

def fbSeg3 : Str := "\n\n⚠ Cortex is disabled.".toList

/-- The explicit disabled-service notice inside `fbSeg3`. -/
def disabledTxt : Str := "Cortex is disabled".toList

/-- The fallback message (line 158). -/
def fallback (q a : Str) : Str :=
  fbSeg1 ++ q ++ fbSeg2 ++ a ++ fbSeg3

/-- The error message built in the `except` branch (line 148). -/
def error_msg (e : Str) : Str := "❌ Cortex Error: ".toList ++ e

/-- One user turn of the chat flow (lines 102–164): append the user
message, retrieve the best match, compose the prompt; then either call
the completion service (appending its reply, or the prefixed error
message if it fails) when Cortex is enabled, or append the fallback
message without calling it.  The boolean of the result records whether
the completion capability was invoked on the turn. -/
def processTurn (corpus : List (Str × Str)) (cortex_enabled : Bool)
    (complete : Str → Except Str Str) (messages : List Turn)
    (prompt : Str) : Except RetrievalError (List Turn × Bool) :=
  let msgs₁ := messages ++ [Turn.mk .user prompt]
  match best_match corpus prompt with
  | .error e => .error e
  | .ok (q, a, score) =>
      let ctx := qa_context q a score prompt
      if cortex_enabled then
        match complete (cortexQuery ctx) with
        | .ok resp => .ok (msgs₁ ++ [Turn.mk .assistant resp], true)
        | .error e => .ok (msgs₁ ++ [Turn.mk .assistant (error_msg e)], true)
      else .ok (msgs₁ ++ [Turn.mk .assistant (fallback q a)], false)

/-!  The loader `load_qa`. -/

/-- A raw cell of the `PROCURE_TABLE` result before `astype(str)`. -/
inductive CellValue where
  | text : Str → CellValue
  | null : CellValue
deriving DecidableEq

/-- Python `str()` as applied by `astype(str)` to a cell. -/
def pyStr : CellValue → Str
  | .text s => s
  | .null => "None".toList

/-- `load_qa()` (lines 38–46): select the two columns and normalize
both with `.astype(str).str.strip()`. -/
def load_qa (rows : List (CellValue × CellValue)) : List (Str × Str) :=
  rows.map (fun r => (pyStrip (pyStr r.1), pyStrip (pyStr r.2)))

/-- `small` occurs contiguously inside `big`. -/
def occursIn (small big : Str) : Prop :=
  ∃ pre post, big = pre ++ small ++ post

/-!  Specification devices for the analysis of `find_longest_match`
(used by the self-similarity proof of `ratio`). -/

/-- Positions (offset by `i0`) at which character `c` occurs in `l`:
the specification of the per-character index lists of `buildB2j`. -/
def occFrom : Str → Nat → Char → List Nat
  | [], _, _ => []
  | d :: l, i0, c =>
      if d = c then i0 :: occFrom l (i0 + 1) c else occFrom l (i0 + 1) c

/-- Length of the run of characters of `a` outside the set `J` ending
at position `r` and staying inside `[lo, _)`.  In the proofs `J` is the
popular set `bpopular a`: the characters absent from the purged index
map, at which the chains of the main loop break. -/
def runEnd (a : Str) (J : List Char) (lo : Nat) : Nat → Nat
  | 0 => if lo = 0 ∧ J.contains (charAt a 0) = false then 1 else 0
  | r + 1 =>
      if r + 1 < lo ∨ J.contains (charAt a (r + 1)) = true then 0
      else runEnd a J lo r + 1

/-- Specification of a `newj2len` entry produced while processing row
`i` of the main loop when both sequences are the same string `a`: the
entry `(jk, v)` records an aligned common run of `v` characters of `a`
outside `J` ending at positions `jk` and `i`. -/
def EntryOK (a : Str) (J : List Char) (lo hi i jk v : Nat) : Prop :=
  lo ≤ jk ∧ jk < hi ∧ 1 ≤ v ∧ v + lo ≤ jk + 1 ∧ v + lo ≤ i + 1 ∧
  ∀ s, s < v → charAt a (jk - s) = charAt a (i - s) ∧
    J.contains (charAt a (jk - s)) = false

/-- Invariant carried over the rows of the main loop of
`find_longest_match` when both sequences are the same string `a` and
the ranges are the diagonal `[lo, hi) × [lo, hi)`: rows `[lo, iNext)`
have been processed, the best triple is diagonal and dominates every
run outside `J` seen so far, and `j2len` holds faithful run records of the
last processed row. -/
def RowInv (a : Str) (J : List Char) (lo hi iNext : Nat)
    (j2len : List (Nat × Nat)) (best : Nat × Nat × Nat) : Prop :=
  best.1 = best.2.1 ∧ lo ≤ best.1 ∧ best.1 + best.2.2 ≤ iNext ∧
  (best.2.2 = 0 → best.1 = lo) ∧
  (∀ r, lo ≤ r → r < iNext → runEnd a J lo r ≤ best.2.2) ∧
  (lo < iNext → J.contains (charAt a (iNext - 1)) = false →
    ∃ d, lookupN j2len (iNext - 1) = some d ∧
      runEnd a J lo (iNext - 1) ≤ d) ∧
  (∀ jk v, lookupN j2len jk = some v → EntryOK a J lo hi (iNext - 1) jk v) ∧
  (∀ jk v, lookupN j2len jk = some v → lo < iNext)

/-!  General lemmas: containment. -/

theorem occursIn_append_left (u : Str) {s t : Str} (h : occursIn s t) :
    occursIn s (u ++ t) := by
  obtain ⟨p, q, hh⟩ := h
  exact ⟨u ++ p, q, by simp [hh, List.append_assoc]⟩

theorem occursIn_append_right {s t : Str} (u : Str) (h : occursIn s t) :
    occursIn s (t ++ u) := by
  obtain ⟨p, q, hh⟩ := h
  exact ⟨p, q ++ u, by simp [hh, List.append_assoc]⟩

theorem occursIn_of_append (p s q : Str) : occursIn s (p ++ s ++ q) :=
  ⟨p, q, rfl⟩

theorem occursIn_head (s q : Str) : occursIn s (s ++ q) := ⟨[], q, rfl⟩

theorem occursIn_last (p s : Str) : occursIn s (p ++ s) :=
  ⟨p, [], by simp⟩

/-!  General lemmas: stripping. -/

theorem dropWhile_dropWhile (p : Char → Bool) (l : Str) :
    (l.dropWhile p).dropWhile p = l.dropWhile p := by
  induction l with
  | nil => rfl
  | cons c l ih =>
      by_cases hc : p c
      · simp [List.dropWhile_cons, hc, ih]
      · simp [List.dropWhile_cons, hc]

theorem dropTrailing_dropTrailing (p : Char → Bool) (l : Str) :
    dropTrailing p (dropTrailing p l) = dropTrailing p l := by
  simp [dropTrailing, List.reverse_reverse, dropWhile_dropWhile]

theorem length_dropWhile_le (p : Char → Bool) (l : Str) :
    (l.dropWhile p).length ≤ l.length := by
  induction l with
  | nil => exact le_refl 0
  | cons c l ih =>
      by_cases hc : p c
      · rw [List.dropWhile_cons, if_pos hc]
        exact le_trans ih (by simp)
      · rw [List.dropWhile_cons, if_neg hc]

theorem dropWhile_append_singleton (p : Char → Bool) (l : Str) (c : Char) :
    (l ++ [c]).dropWhile p =
      if l.dropWhile p = [] then (if p c then [] else [c])
      else l.dropWhile p ++ [c] := by
  induction l with
  | nil => cases hpc : p c <;> simp [List.dropWhile, hpc]
  | cons d l ih =>
      by_cases hd : p d
      · simpa [List.dropWhile_cons, hd] using ih
      · simp [List.dropWhile_cons, hd]

theorem dropWhile_dropTrailing (p : Char → Bool) (l : Str)
    (h : l.dropWhile p = l) :
    (dropTrailing p l).dropWhile p = dropTrailing p l := by
  cases l with
  | nil => rfl
  | cons c l =>
      have hc : p c = false := by
        cases hpc : p c
        · rfl
        · rw [List.dropWhile_cons, if_pos hpc] at h
          have hlen := congrArg List.length h
          have hle := length_dropWhile_le p l
          simp at hlen
          omega
      rw [dropTrailing]
      rw [List.reverse_cons, dropWhile_append_singleton]
      by_cases hnil : (l.reverse.dropWhile p) = []
      · rw [if_pos hnil, if_neg (by simp [hc])]
        simp [List.dropWhile, hc]
      · rw [if_neg hnil]
        rw [List.reverse_append]
        simp only [List.reverse_cons, List.reverse_nil, List.nil_append,
          List.singleton_append]
        rw [List.dropWhile_cons, if_neg (by simp [hc])]

theorem pyStrip_pyStrip (s : Str) : pyStrip (pyStrip s) = pyStrip s := by
  show dropTrailing pyIsSpace ((dropTrailing pyIsSpace
      (s.dropWhile pyIsSpace)).dropWhile pyIsSpace) = _
  rw [dropWhile_dropTrailing pyIsSpace _ (dropWhile_dropWhile pyIsSpace s),
    dropTrailing_dropTrailing]
  rfl

/-!  General lemmas: escaping. -/

theorem escapeQ_nil : escapeQ [] = [] := by
  rw [escapeQ, pyReplace]

theorem escapeQ_cons (c : Char) (s : Str) :
    escapeQ (c :: s) = if c = sq then sq :: sq :: escapeQ s
      else c :: escapeQ s := by
  by_cases hc : c = sq
  · subst hc
    rw [escapeQ, pyReplace, dif_pos (by simp [startsWithL])]
    simp [escapeQ]
  · rw [escapeQ, pyReplace, dif_neg (by simp [startsWithL, hc])]
    simp [hc, escapeQ]

theorem unescapeQ_nil : unescapeQ [] = [] := by
  rw [unescapeQ, pyReplace]

theorem unescape_escape (s : Str) : unescapeQ (escapeQ s) = s := by
  induction s with
  | nil => rw [escapeQ_nil, unescapeQ_nil]
  | cons c s ih =>
      rw [escapeQ_cons]
      by_cases hc : c = sq
      · rw [if_pos hc, unescapeQ, pyReplace,
          dif_pos (by simp [startsWithL])]
        simp only [List.length_cons, List.length_nil, List.drop_succ_cons,
          List.drop_zero]
        rw [hc]
        show sq :: unescapeQ (escapeQ s) = sq :: s
        rw [ih]
      · rw [if_neg hc, unescapeQ, pyReplace,
          dif_neg (by simp [startsWithL, hc])]
        show c :: unescapeQ (escapeQ s) = c :: s
        rw [ih]

theorem doubleQuotes_nil : doubleQuotes [] = [] := rfl

theorem doubleQuotes_cons (c : Char) (s : Str) :
    doubleQuotes (c :: s) =
      (if c = sq then [sq, sq] else [c]) ++ doubleQuotes s := by
  rw [doubleQuotes, doubleQuotes, List.flatMap_cons]

theorem escapeQ_eq_doubleQuotes (s : Str) : escapeQ s = doubleQuotes s := by
  induction s with
  | nil => rw [escapeQ_nil, doubleQuotes_nil]
  | cons c s ih =>
      rw [escapeQ_cons, doubleQuotes_cons, ih]
      by_cases hc : c = sq
      · simp [hc]
      · simp [hc]

/-!  General lemmas: `max` and first index. -/

theorem foldl_max_le_self (x : ℚ) (l : List ℚ) : x ≤ l.foldl max x := by
  induction l generalizing x with
  | nil => exact le_refl x
  | cons y l ih => exact le_trans (le_max_left x y) (ih (max x y))

theorem le_foldl_max (l : List ℚ) (x y : ℚ) (h : y ∈ l) :
    y ≤ l.foldl max x := by
  induction l generalizing x with
  | nil => cases h
  | cons z l ih =>
      rcases List.mem_cons.1 h with hz | hz
      · subst hz
        exact le_trans (le_max_right x y) (foldl_max_le_self _ _)
      · exact ih (max x z) hz

theorem foldl_max_mem (l : List ℚ) (x : ℚ) :
    l.foldl max x = x ∨ l.foldl max x ∈ l := by
  induction l generalizing x with
  | nil => exact Or.inl rfl
  | cons y l ih =>
      rcases ih (max x y) with h | h
      · rw [List.foldl_cons, h]
        rcases max_choice x y with hm | hm
        · exact Or.inl hm
        · exact Or.inr (by rw [hm]; exact List.mem_cons_self _ _)
      · exact Or.inr (List.mem_cons_of_mem _ (by rw [List.foldl_cons]; exact h))

theorem pyMax_spec (l : List ℚ) (m : ℚ) (h : pyMax l = some m) :
    m ∈ l ∧ ∀ y ∈ l, y ≤ m := by
  cases l with
  | nil => cases h
  | cons x xs =>
      rw [pyMax, Option.some_inj] at h
      subst h
      constructor
      · rcases foldl_max_mem xs x with h | h
        · rw [h]; exact List.mem_cons_self _ _
        · exact List.mem_cons_of_mem _ h
      · intro y hy
        rcases List.mem_cons.1 hy with hy | hy
        · subst hy; exact foldl_max_le_self _ _
        · exact le_foldl_max _ _ _ hy

theorem pyMax_isSome (l : List ℚ) (h : l ≠ []) : ∃ m, pyMax l = some m := by
  cases l with
  | nil => exact absurd rfl h
  | cons x xs => exact ⟨_, rfl⟩

theorem indexOfQ_lt_length (l : List ℚ) (m : ℚ) (h : m ∈ l) :
    indexOfQ l m < l.length := by
  induction l with
  | nil => cases h
  | cons x xs ih =>
      rw [indexOfQ]
      by_cases hx : x = m
      · simp [hx]
      · rw [if_neg hx]
        have hm : m ∈ xs := by
          rcases List.mem_cons.1 h with hh | hh
          · exact absurd hh.symm hx
          · exact hh
        simpa using ih hm

theorem indexOfQ_getD (l : List ℚ) (m : ℚ) (h : m ∈ l) :
    l.getD (indexOfQ l m) 0 = m := by
  induction l with
  | nil => cases h
  | cons x xs ih =>
      rw [indexOfQ]
      by_cases hx : x = m
      · simp [hx]
      · rw [if_neg hx]
        have hm : m ∈ xs := by
          rcases List.mem_cons.1 h with hh | hh
          · exact absurd hh.symm hx
          · exact hh
        simpa using ih hm

theorem indexOfQ_earlier (l : List ℚ) (m : ℚ) (j : Nat)
    (hj : j < indexOfQ l m) : l.getD j 0 ≠ m := by
  induction l generalizing j with
  | nil => simp [indexOfQ] at hj
  | cons x xs ih =>
      rw [indexOfQ] at hj
      by_cases hx : x = m
      · rw [if_pos hx] at hj; omega
      · rw [if_neg hx] at hj
        cases j with
        | zero => simpa using hx
        | succ j => simpa using ih j (by omega)

/-!  General lemmas: `occFrom` and the index map built by `chain_b`. -/

theorem occFrom_bounds (l : Str) (c : Char) :
    ∀ i0, ∀ j ∈ occFrom l i0 c, i0 ≤ j ∧ j < i0 + l.length := by
  induction l with
  | nil => intro i0 j hj; cases hj
  | cons d l ih =>
      intro i0 j hj
      rw [occFrom] at hj
      by_cases hd : d = c
      · rw [if_pos hd] at hj
        rcases List.mem_cons.1 hj with h | h
        · subst h; simp
        · have := ih (i0 + 1) j h
          constructor <;> [omega; (simp only [List.length_cons]; omega)]
      · rw [if_neg hd] at hj
        have := ih (i0 + 1) j hj
        constructor <;> [omega; (simp only [List.length_cons]; omega)]

theorem occFrom_sorted (l : Str) (c : Char) :
    ∀ i0, List.Pairwise (· < ·) (occFrom l i0 c) := by
  induction l with
  | nil => intro i0; exact List.Pairwise.nil
  | cons d l ih =>
      intro i0
      rw [occFrom]
      by_cases hd : d = c
      · rw [if_pos hd]
        refine List.Pairwise.cons ?_ (ih (i0 + 1))
        intro j hj
        have := occFrom_bounds l c (i0 + 1) j hj
        omega
      · rw [if_neg hd]; exact ih (i0 + 1)

theorem occFrom_sound (l : Str) (c : Char) :
    ∀ i0, ∀ j ∈ occFrom l i0 c, l.getD (j - i0) (Char.ofNat 32) = c := by
  induction l with
  | nil => intro i0 j hj; cases hj
  | cons d l ih =>
      intro i0 j hj
      rw [occFrom] at hj
      by_cases hd : d = c
      · rw [if_pos hd] at hj
        rcases List.mem_cons.1 hj with h | h
        · subst h; simpa using hd
        · have hb := occFrom_bounds l c (i0 + 1) j h
          have : j - i0 = (j - (i0 + 1)) + 1 := by omega
          rw [this, List.getD_cons_succ]
          exact ih (i0 + 1) j h
      · rw [if_neg hd] at hj
        have hb := occFrom_bounds l c (i0 + 1) j hj
        have : j - i0 = (j - (i0 + 1)) + 1 := by omega
        rw [this, List.getD_cons_succ]
        exact ih (i0 + 1) j hj

theorem occFrom_self (l : Str) :
    ∀ i0 k, k < l.length →
      (i0 + k) ∈ occFrom l i0 (l.getD k (Char.ofNat 32)) := by
  induction l with
  | nil => intro i0 k hk; cases hk
  | cons d l ih =>
      intro i0 k hk
      cases k with
      | zero =>
          rw [List.getD_cons_zero, occFrom, if_pos rfl]
          simp
      | succ k =>
          rw [List.getD_cons_succ, occFrom]
          have hmem := ih (i0 + 1) k (by simpa using hk)
          have : i0 + (k + 1) = (i0 + 1) + k := by omega
          rw [this]
          by_cases hd : d = l.getD k (Char.ofNat 32)
          · rw [if_pos hd]; exact List.mem_cons_of_mem _ hmem
          · rw [if_neg hd]; exact hmem

theorem lookupIdx_addIndex (m : List (Char × List Nat)) (d : Char) (i : Nat)
    (c : Char) :
    lookupIdx (addIndex m d i) c =
      if c = d then lookupIdx m c ++ [i] else lookupIdx m c := by
  induction m with
  | nil => by_cases hc : c = d <;> simp [addIndex, lookupIdx, hc]
  | cons p rest ih =>
      obtain ⟨c₀, js⟩ := p
      by_cases hd : d = c₀
      · subst hd
        by_cases hc : c = d <;> simp [addIndex, lookupIdx, hc]
      · rw [addIndex, if_neg hd, lookupIdx, ih]
        by_cases hc : c = c₀
        · have hcd : ¬c = d := fun hcd => hd (hcd.symm.trans hc)
          rw [if_pos hc, if_neg hcd, lookupIdx, if_pos hc]
        · rw [if_neg hc, lookupIdx, if_neg hc]

theorem lookupIdx_b2jAux (l : Str) :
    ∀ (m : List (Char × List Nat)) (i0 : Nat) (c : Char),
      lookupIdx (b2jAux m l i0) c = lookupIdx m c ++ occFrom l i0 c := by
  induction l with
  | nil => intro m i0 c; rw [b2jAux, occFrom, List.append_nil]
  | cons d l ih =>
      intro m i0 c
      rw [b2jAux, ih, lookupIdx_addIndex, occFrom]
      by_cases hc : c = d
      · rw [if_pos hc, if_pos hc.symm, List.append_assoc, List.singleton_append]
      · rw [if_neg hc, if_neg (fun h => hc h.symm)]

theorem lookupIdx_buildB2j (b : Str) (c : Char) :
    lookupIdx (buildB2j b) c = occFrom b 0 c := by
  rw [buildB2j, lookupIdx_b2jAux, lookupIdx, List.nil_append]

theorem keys_addIndex (m : List (Char × List Nat)) (d : Char) (i : Nat) :
    (addIndex m d i).map Prod.fst =
      if d ∈ m.map Prod.fst then m.map Prod.fst else m.map Prod.fst ++ [d] := by
  induction m with
  | nil => simp [addIndex]
  | cons p rest ih =>
      obtain ⟨c₀, js⟩ := p
      rw [addIndex]
      by_cases hd : d = c₀
      · rw [if_pos hd]
        simp [hd]
      · rw [if_neg hd]
        simp only [List.map_cons, ih]
        by_cases hmem : d ∈ rest.map Prod.fst
        · rw [if_pos hmem, if_pos (by simp [hmem])]
        · rw [if_neg hmem, if_neg (by simp [hmem, hd])]
          simp

theorem nodup_keys_addIndex (m : List (Char × List Nat)) (d : Char) (i : Nat)
    (h : (m.map Prod.fst).Nodup) : ((addIndex m d i).map Prod.fst).Nodup := by
  rw [keys_addIndex]
  by_cases hmem : d ∈ m.map Prod.fst
  · rw [if_pos hmem]; exact h
  · rw [if_neg hmem]
    rw [List.nodup_append]
    refine ⟨h, List.nodup_singleton d, ?_⟩
    intro x hx hxd
    rw [List.mem_singleton] at hxd
    exact hmem (hxd ▸ hx)

theorem nodup_keys_b2jAux (l : Str) :
    ∀ (m : List (Char × List Nat)) (i0 : Nat), (m.map Prod.fst).Nodup →
      ((b2jAux m l i0).map Prod.fst).Nodup := by
  induction l with
  | nil => intro m i0 h; exact h
  | cons d l ih =>
      intro m i0 h
      rw [b2jAux]
      exact ih _ _ (nodup_keys_addIndex m d i0 h)

theorem nodup_keys_buildB2j (b : Str) :
    ((buildB2j b).map Prod.fst).Nodup :=
  nodup_keys_b2jAux b [] 0 List.nodup_nil

theorem lookupIdx_not_mem (m : List (Char × List Nat)) (c : Char)
    (h : c ∉ m.map Prod.fst) : lookupIdx m c = [] := by
  induction m with
  | nil => rfl
  | cons p rest ih =>
      obtain ⟨c₀, js⟩ := p
      rw [lookupIdx, if_neg (by intro hc; exact h (by simp [hc]))]
      exact ih (by intro hc; exact h (by simp [hc]))

theorem lookupIdx_filter (φ : Char × List Nat → Bool)
    (m : List (Char × List Nat)) (c : Char) (h : (m.map Prod.fst).Nodup) :
    lookupIdx (m.filter φ) c =
      if φ (c, lookupIdx m c) then lookupIdx m c else [] := by
  induction m with
  | nil =>
      simp only [List.filter_nil, lookupIdx]
      split <;> rfl
  | cons p rest ih =>
      obtain ⟨c₀, js⟩ := p
      rw [List.map_cons, List.nodup_cons] at h
      rw [List.filter_cons]
      by_cases hc : c = c₀
      · subst hc
        rw [lookupIdx, if_pos rfl]
        by_cases hφ : φ (c, js)
        · rw [if_pos (by simpa using hφ), if_pos hφ, lookupIdx, if_pos rfl]
        · rw [if_neg (by simpa using hφ), if_neg hφ]
          rw [ih h.2, lookupIdx_not_mem rest c h.1]
          by_cases hφ2 : φ (c, ([] : List Nat))
          · rw [if_pos hφ2]
          · rw [if_neg hφ2]
      · rw [lookupIdx, if_neg hc]
        by_cases hφ : φ (c₀, js)
        · rw [if_pos (by simpa using hφ), lookupIdx, if_neg hc, ih h.2]
        · rw [if_neg (by simpa using hφ), ih h.2]

theorem mem_of_lookupIdx (m : List (Char × List Nat)) (c : Char)
    (h : lookupIdx m c ≠ []) : (c, lookupIdx m c) ∈ m := by
  induction m with
  | nil => exact absurd rfl h
  | cons p rest ih =>
      obtain ⟨c₀, js⟩ := p
      by_cases hc : c = c₀
      · subst hc
        rw [lookupIdx, if_pos rfl]
        exact List.mem_cons_self _ _
      · rw [lookupIdx, if_neg hc] at h ⊢
        exact List.mem_cons_of_mem _ (ih h)

theorem lookupIdx_of_mem (m : List (Char × List Nat)) (c : Char)
    (js : List Nat) (hnd : (m.map Prod.fst).Nodup) (h : (c, js) ∈ m) :
    lookupIdx m c = js := by
  induction m with
  | nil => cases h
  | cons p rest ih =>
      obtain ⟨c₀, js₀⟩ := p
      rw [List.map_cons, List.nodup_cons] at hnd
      rcases List.mem_cons.1 h with hh | hh
      · have h1 : c = c₀ := congrArg Prod.fst hh
        have h2 : js = js₀ := congrArg Prod.snd hh
        rw [lookupIdx, if_pos h1, h2]
      · have hc : c ≠ c₀ := by
          intro hcc
          subst hcc
          exact hnd.1 (by simpa using List.mem_map_of_mem Prod.fst hh)
        rw [lookupIdx, if_neg hc]
        exact ih hnd.2 hh

/-!  Interface of `chain_b`: the properties of the purged index map and
the junk set that the self-similarity proof consumes. -/

theorem chainB_mem (b : Str) (c : Char) (j : Nat)
    (h : j ∈ lookupIdx (chain_b b).1 c) : j ∈ occFrom b 0 c := by
  rw [chain_b] at h
  by_cases hn : 200 ≤ b.length
  · rw [if_pos hn] at h
    simp only at h
    rw [lookupIdx_filter _ _ _ (nodup_keys_buildB2j b)] at h
    by_cases hφ : (decide (((lookupIdx (buildB2j b) c).length ≤ b.length / 100 + 1)) : Bool)
    · rw [if_pos (by simpa using hφ), lookupIdx_buildB2j] at h
      exact h
    · rw [if_neg (by simpa using hφ)] at h
      cases h
  · rw [if_neg hn] at h
    simp only at h
    rw [lookupIdx_buildB2j] at h
    exact h

theorem chainB_sorted (b : Str) (c : Char) :
    List.Pairwise (· < ·) (lookupIdx (chain_b b).1 c) := by
  rw [chain_b]
  by_cases hn : 200 ≤ b.length
  · rw [if_pos hn]
    simp only
    rw [lookupIdx_filter _ _ _ (nodup_keys_buildB2j b)]
    by_cases hφ : (decide (((lookupIdx (buildB2j b) c).length ≤ b.length / 100 + 1)) : Bool)
    · rw [if_pos (by simpa using hφ), lookupIdx_buildB2j]
      exact occFrom_sorted b c 0
    · rw [if_neg (by simpa using hφ)]
      exact List.Pairwise.nil
  · rw [if_neg hn]
    simp only
    rw [lookupIdx_buildB2j]
    exact occFrom_sorted b c 0

theorem chain_b_snd (b : Str) : (chain_b b).2 = [] := by
  rw [chain_b]
  by_cases hn : 200 ≤ b.length
  · rw [if_pos hn]
  · rw [if_neg hn]

theorem contains_iff_mem (J : List Char) (c : Char) :
    J.contains c = true ↔ c ∈ J := by
  rw [List.contains_eq_any_beq, List.any_eq_true]
  constructor
  · rintro ⟨x, hx, hbeq⟩
    exact (beq_iff_eq.1 hbeq) ▸ hx
  · intro hc
    exact ⟨c, hc, beq_iff_eq.2 rfl⟩

theorem chainB_popular (b : Str) (c : Char)
    (h : (bpopular b).contains c = true) : lookupIdx (chain_b b).1 c = [] := by
  rw [bpopular] at h
  rw [chain_b]
  by_cases hn : 200 ≤ b.length
  · rw [if_pos hn] at h ⊢
    simp only at h ⊢
    rw [List.contains_eq_any_beq] at h
    simp only [List.any_eq_true, List.mem_map] at h
    obtain ⟨c', ⟨p, hp, hpc⟩, hbeq⟩ := h
    obtain ⟨hmem, hpop⟩ := List.mem_filter.1 hp
    have hceq : c = p.1 := by
      have hcc : c = c' := beq_iff_eq.1 hbeq
      rw [hcc, ← hpc]
    rw [lookupIdx_filter _ _ _ (nodup_keys_buildB2j b)]
    have hlp : lookupIdx (buildB2j b) p.1 = p.2 :=
      lookupIdx_of_mem _ _ _ (nodup_keys_buildB2j b) (by cases p; exact hmem)
    rw [hceq, hlp]
    rw [if_neg (by simpa using by simpa using hpop)]
  · rw [if_neg hn] at h
    simp at h

theorem chainB_complete (b : Str) (i : Nat) (h : i < b.length)
    (hj : (bpopular b).contains (charAt b i) = false) :
    i ∈ lookupIdx (chain_b b).1 (charAt b i) := by
  have hocc : i ∈ occFrom b 0 (charAt b i) := by
    simpa [charAt] using occFrom_self b 0 i h
  rw [bpopular] at hj
  rw [chain_b]
  by_cases hn : 200 ≤ b.length
  · rw [if_pos hn] at hj ⊢
    simp only at hj ⊢
    rw [lookupIdx_filter _ _ _ (nodup_keys_buildB2j b)]
    by_cases hφ : ((lookupIdx (buildB2j b) (charAt b i)).length ≤
        b.length / 100 + 1)
    · rw [if_pos (by simpa using hφ), lookupIdx_buildB2j]
      exact hocc
    · exfalso
      have hne : lookupIdx (buildB2j b) (charAt b i) ≠ [] := by
        rw [lookupIdx_buildB2j]
        intro hempty
        rw [hempty] at hocc
        cases hocc
      have hmem := mem_of_lookupIdx _ _ hne
      have hJ : charAt b i ∈ ((buildB2j b).filter
          (fun p => decide (b.length / 100 + 1 < p.2.length))).map Prod.fst := by
        refine List.mem_map.2 ⟨(charAt b i,
          lookupIdx (buildB2j b) (charAt b i)), ?_, rfl⟩
        refine List.mem_filter.2 ⟨hmem, ?_⟩
        simp only [decide_eq_true_eq]
        omega
      rw [← contains_iff_mem] at hJ
      rw [hJ] at hj
      cases hj
  · rw [if_neg hn]
    simp only
    rw [lookupIdx_buildB2j]
    exact hocc

theorem chainB_nonpopular (b : Str) (c : Char)
    (h : lookupIdx (chain_b b).1 c ≠ []) :
    (bpopular b).contains c = false := by
  cases hcont : (bpopular b).contains c
  · rfl
  · exact absurd (chainB_popular b c hcont) h

/-!  General lemmas: `runEnd`. -/

theorem runEnd_le (a : Str) (J : List Char) (lo : Nat) :
    ∀ r, runEnd a J lo r ≤ r + 1 - lo := by
  intro r
  induction r with
  | zero =>
      rw [runEnd]
      split
      · omega
      · omega
  | succ r ih =>
      rw [runEnd]
      split
      · omega
      · rename_i hcond
        push_neg at hcond
        omega

theorem runEnd_lt_lo (a : Str) (J : List Char) (lo r : Nat) (h : r < lo) :
    runEnd a J lo r = 0 := by
  cases r with
  | zero => rw [runEnd, if_neg (by omega)]
  | succ r => rw [runEnd, if_pos (Or.inl h)]

theorem runEnd_of_junk (a : Str) (J : List Char) (lo r : Nat)
    (h : J.contains (charAt a r) = true) : runEnd a J lo r = 0 := by
  cases r with
  | zero =>
      rw [runEnd, if_neg ?_]
      rintro ⟨-, hfalse⟩
      rw [h] at hfalse
      cases hfalse
  | succ r => rw [runEnd, if_pos (Or.inr h)]

theorem runEnd_succ_eq (a : Str) (J : List Char) (lo r : Nat)
    (hlo : lo ≤ r + 1) (hnj : J.contains (charAt a (r + 1)) = false) :
    runEnd a J lo (r + 1) = runEnd a J lo r + 1 := by
  rw [runEnd, if_neg ?_]
  simp only [hnj, not_or]
  constructor
  · omega
  · simp

theorem runEnd_pos (a : Str) (J : List Char) (lo r : Nat) (hlo : lo ≤ r)
    (hnj : J.contains (charAt a r) = false) : 1 ≤ runEnd a J lo r := by
  cases r with
  | zero => rw [runEnd, if_pos ⟨by omega, hnj⟩]
  | succ r =>
      rw [runEnd_succ_eq a J lo r hlo hnj]
      omega

theorem runEnd_ge_of_chain (a : Str) (J : List Char) (lo : Nat) :
    ∀ v r, (∀ s, s < v → J.contains (charAt a (r - s)) = false) →
      v + lo ≤ r + 1 → v ≤ runEnd a J lo r := by
  intro v
  induction v with
  | zero => intro r _ _; omega
  | succ v ih =>
      intro r hchain hb
      have hnj0 : J.contains (charAt a r) = false := by
        have := hchain 0 (by omega)
        simpa using this
      cases r with
      | zero =>
          have hv : v = 0 := by omega
          have hlo : lo = 0 := by omega
          subst hv
          rw [runEnd, if_pos ⟨hlo, hnj0⟩]
      | succ r =>
          rw [runEnd_succ_eq a J lo r (by omega) hnj0]
          have hchain' : ∀ s, s < v →
              J.contains (charAt a (r - s)) = false := by
            intro s hs
            have := hchain (s + 1) (by omega)
            have hidx : r + 1 - (s + 1) = r - s := by omega
            rwa [hidx] at this
          have := ih r hchain' (by omega)
          omega

/-!  General lemmas: the main loop of `find_longest_match` on the
diagonal.  Throughout, both sequences are the same string `a`, the
ranges are `[lo, hi) × [lo, hi)`, `c` is the character of the row
`iNext` being processed, and `j2len` holds the entries of the previous
row. -/

theorem sorted_mem_split (l : List Nat) (x : Nat)
    (hs : List.Pairwise (· < ·) l) (hx : x ∈ l) :
    ∃ A B, l = A ++ x :: B ∧ (∀ j ∈ A, j < x) ∧ (∀ j ∈ B, x < j) := by
  induction l with
  | nil => cases hx
  | cons y l ih =>
      rw [List.pairwise_cons] at hs
      rcases List.mem_cons.1 hx with hxy | hxl
      · refine ⟨[], l, ?_, ?_, ?_⟩
        · rw [hxy, List.nil_append]
        · intro j hj
          cases hj
        · intro j hj
          rw [hxy]
          exact hs.1 j hj
      · obtain ⟨A, B, hAB, hA, hB⟩ := ih hs.2 hxl
        refine ⟨y :: A, B, ?_, ?_, hB⟩
        · rw [hAB, List.cons_append]
        · intro j hj
          rcases List.mem_cons.1 hj with h | h
          · rw [h]
            exact hs.1 x hxl
          · exact hA j h

theorem flmRow_append (j2len : List (Nat × Nat)) (blo bhi i : Nat)
    (A B : List Nat) (hA : ∀ j ∈ A, j < bhi) :
    ∀ new best, flmRow j2len blo bhi i (A ++ B) new best =
      flmRow j2len blo bhi i B (flmRow j2len blo bhi i A new best).1
        (flmRow j2len blo bhi i A new best).2 := by
  induction A with
  | nil => intro new best; rw [List.nil_append, flmRow]
  | cons j A ih =>
      intro new best
      have hjlt : j < bhi := hA j (List.mem_cons_self _ _)
      have hA' : ∀ x ∈ A, x < bhi := fun x hx => hA x (List.mem_cons_of_mem _ hx)
      have h2 : ¬bhi ≤ j := by omega
      rw [List.cons_append, flmRow, flmRow]
      by_cases h1 : j < blo
      · rw [if_pos h1, if_pos h1]
        exact ih hA' new best
      · rw [if_neg h1, if_neg h1, if_neg h2, if_neg h2]
        exact ih hA' _ _

theorem k_le_runEnds (a : Str) (J : List Char) (lo hi iNext : Nat)
    (j2len : List (Nat × Nat))
    (hent : ∀ jk v, lookupN j2len jk = some v →
      EntryOK a J lo hi (iNext - 1) jk v)
    (hNE : ∀ jk v, lookupN j2len jk = some v → lo < iNext)
    (hnj : J.contains (charAt a iNext) = false)
    (hloN : lo ≤ iNext)
    (j : Nat) (hjlo : lo ≤ j) (hjc : charAt a j = charAt a iNext) :
    ((if j = 0 then 0 else (lookupN j2len (j - 1)).getD 0) + 1 ≤
      runEnd a J lo j) ∧
    ((if j = 0 then 0 else (lookupN j2len (j - 1)).getD 0) + 1 ≤
      runEnd a J lo iNext) := by
  have hnjj : J.contains (charAt a j) = false := by rw [hjc]; exact hnj
  by_cases hj0 : j = 0
  · rw [if_pos hj0]
    subst hj0
    exact ⟨runEnd_pos a J lo 0 hjlo hnjj, runEnd_pos a J lo iNext hloN hnj⟩
  · rw [if_neg hj0]
    cases hlk : lookupN j2len (j - 1) with
    | none =>
        simp only [Option.getD_none]
        exact ⟨runEnd_pos a J lo j hjlo hnjj, runEnd_pos a J lo iNext hloN hnj⟩
    | some v =>
        simp only [Option.getD_some]
        have hiNlo : lo < iNext := hNE (j - 1) v hlk
        obtain ⟨he1, he2, he3, he4, he5, hchars⟩ := hent (j - 1) v hlk
        constructor
        · refine runEnd_ge_of_chain a J lo (v + 1) j ?_ (by omega)
          intro s hs
          cases s with
          | zero => simpa using hnjj
          | succ s =>
              have hidx : j - (s + 1) = (j - 1) - s := by omega
              rw [hidx]
              exact (hchars s (by omega)).2
        · refine runEnd_ge_of_chain a J lo (v + 1) iNext ?_ (by omega)
          intro s hs
          cases s with
          | zero => simpa using hnj
          | succ s =>
              have hiN1 : 1 ≤ iNext := by omega
              have hidx : iNext - (s + 1) = (iNext - 1) - s := by omega
              rw [hidx, ← (hchars s (by omega)).1]
              exact (hchars s (by omega)).2

theorem entryOK_step (a : Str) (J : List Char) (lo hi iNext : Nat)
    (j2len : List (Nat × Nat))
    (hent : ∀ jk v, lookupN j2len jk = some v →
      EntryOK a J lo hi (iNext - 1) jk v)
    (hNE : ∀ jk v, lookupN j2len jk = some v → lo < iNext)
    (hnj : J.contains (charAt a iNext) = false)
    (hloN : lo ≤ iNext)
    (j : Nat) (hjlo : lo ≤ j) (hjhi : j < hi)
    (hjc : charAt a j = charAt a iNext) :
    EntryOK a J lo hi iNext j
      ((if j = 0 then 0 else (lookupN j2len (j - 1)).getD 0) + 1) := by
  have hnjj : J.contains (charAt a j) = false := by rw [hjc]; exact hnj
  have hzero : ∀ s, s = 0 →
      charAt a (j - s) = charAt a (iNext - s) ∧
        J.contains (charAt a (j - s)) = false := by
    intro s hs
    subst hs
    constructor
    · rw [Nat.sub_zero, Nat.sub_zero]
      exact hjc
    · rw [Nat.sub_zero]
      exact hnjj
  by_cases hj0 : j = 0
  · rw [if_pos hj0]
    refine ⟨hjlo, hjhi, by omega, by omega, by omega, ?_⟩
    intro s hs
    exact hzero s (by omega)
  · rw [if_neg hj0]
    cases hlk : lookupN j2len (j - 1) with
    | none =>
        simp only [Option.getD_none]
        refine ⟨hjlo, hjhi, by omega, by omega, by omega, ?_⟩
        intro s hs
        exact hzero s (by omega)
    | some v =>
        simp only [Option.getD_some]
        have hiNlo : lo < iNext := hNE (j - 1) v hlk
        obtain ⟨he1, he2, he3, he4, he5, hchars⟩ := hent (j - 1) v hlk
        refine ⟨hjlo, hjhi, by omega, by omega, by omega, ?_⟩
        intro s hs
        cases s with
        | zero => exact hzero 0 rfl
        | succ s =>
            have hidx1 : j - (s + 1) = (j - 1) - s := by omega
            have hidx2 : iNext - (s + 1) = (iNext - 1) - s := by omega
            rw [hidx1, hidx2]
            exact hchars s (by omega)

theorem flmRow_pre (a : Str) (J : List Char) (lo hi iNext : Nat)
    (j2len : List (Nat × Nat)) (bi bs : Nat)
    (hbd : ∀ r, lo ≤ r → r < iNext → runEnd a J lo r ≤ bs)
    (hent : ∀ jk v, lookupN j2len jk = some v →
      EntryOK a J lo hi (iNext - 1) jk v)
    (hNE : ∀ jk v, lookupN j2len jk = some v → lo < iNext)
    (hnj : J.contains (charAt a iNext) = false)
    (hloN : lo ≤ iNext) (hNhi : iNext < hi) :
    ∀ A, (∀ j ∈ A, j < iNext) → (∀ j ∈ A, charAt a j = charAt a iNext) →
      ∀ new, (∀ jk v, lookupN new jk = some v → EntryOK a J lo hi iNext jk v) →
        (flmRow j2len lo hi iNext A new (bi, bi, bs)).2 = (bi, bi, bs) ∧
        ∀ jk v, lookupN (flmRow j2len lo hi iNext A new (bi, bi, bs)).1 jk =
          some v → EntryOK a J lo hi iNext jk v := by
  intro A
  induction A with
  | nil =>
      intro _ _ new hnew
      rw [flmRow]
      exact ⟨rfl, hnew⟩
  | cons j A ih =>
      intro hlt hcs new hnew
      have hjlt : j < iNext := hlt j (List.mem_cons_self _ _)
      have hjc : charAt a j = charAt a iNext := hcs j (List.mem_cons_self _ _)
      have hlt' : ∀ x ∈ A, x < iNext :=
        fun x hx => hlt x (List.mem_cons_of_mem _ hx)
      have hcs' : ∀ x ∈ A, charAt a x = charAt a iNext :=
        fun x hx => hcs x (List.mem_cons_of_mem _ hx)
      rw [flmRow]
      by_cases h1 : j < lo
      · rw [if_pos h1]
        exact ih hlt' hcs' new hnew
      · rw [if_neg h1, if_neg (show ¬hi ≤ j by omega)]
        have hjlo : lo ≤ j := by omega
        have hkle : rowK j2len j ≤ runEnd a J lo j := by
          rw [rowK]
          exact (k_le_runEnds a J lo hi iNext j2len hent hNE hnj hloN
            j hjlo hjc).1
        have hkbs : rowK j2len j ≤ bs := le_trans hkle (hbd j hjlo hjlt)
        have hcond : ¬((bi, bi, bs) : Nat × Nat × Nat).2.2 < rowK j2len j := by
          show ¬bs < rowK j2len j
          omega
        rw [if_neg hcond]
        refine ih hlt' hcs' ((j, rowK j2len j) :: new) ?_
        intro jk v hlk
        rw [lookupN] at hlk
        by_cases hj : jk = j
        · rw [if_pos hj] at hlk
          have hv : rowK j2len j = v := by
            injection hlk
          rw [hj, ← hv, rowK]
          exact entryOK_step a J lo hi iNext j2len hent hNE hnj hloN
            j hjlo (by omega) hjc
        · rw [if_neg hj] at hlk
          exact hnew jk v hlk

theorem flmRow_post (a : Str) (J : List Char) (lo hi iNext : Nat)
    (j2len : List (Nat × Nat)) (bi bs : Nat)
    (hbs : runEnd a J lo iNext ≤ bs)
    (hent : ∀ jk v, lookupN j2len jk = some v →
      EntryOK a J lo hi (iNext - 1) jk v)
    (hNE : ∀ jk v, lookupN j2len jk = some v → lo < iNext)
    (hnj : J.contains (charAt a iNext) = false)
    (hloN : lo ≤ iNext) :
    ∀ B, (∀ j ∈ B, iNext < j) → (∀ j ∈ B, charAt a j = charAt a iNext) →
      ∀ new, (∀ jk v, lookupN new jk = some v → EntryOK a J lo hi iNext jk v) →
        (flmRow j2len lo hi iNext B new (bi, bi, bs)).2 = (bi, bi, bs) ∧
        (∀ jk v, lookupN (flmRow j2len lo hi iNext B new (bi, bi, bs)).1 jk =
          some v → EntryOK a J lo hi iNext jk v) ∧
        (∀ jk, jk ≤ iNext →
          lookupN (flmRow j2len lo hi iNext B new (bi, bi, bs)).1 jk =
            lookupN new jk) := by
  intro B
  induction B with
  | nil =>
      intro _ _ new hnew
      rw [flmRow]
      exact ⟨rfl, hnew, fun jk _ => rfl⟩
  | cons j B ih =>
      intro hgt hcs new hnew
      have hjgt : iNext < j := hgt j (List.mem_cons_self _ _)
      have hjc : charAt a j = charAt a iNext := hcs j (List.mem_cons_self _ _)
      have hgt' : ∀ x ∈ B, iNext < x :=
        fun x hx => hgt x (List.mem_cons_of_mem _ hx)
      have hcs' : ∀ x ∈ B, charAt a x = charAt a iNext :=
        fun x hx => hcs x (List.mem_cons_of_mem _ hx)
      rw [flmRow]
      rw [if_neg (show ¬j < lo by omega)]
      by_cases h2 : hi ≤ j
      · rw [if_pos h2]
        exact ⟨rfl, hnew, fun jk _ => rfl⟩
      · rw [if_neg h2]
        have hjlo : lo ≤ j := by omega
        have hkle : rowK j2len j ≤ runEnd a J lo iNext := by
          rw [rowK]
          exact (k_le_runEnds a J lo hi iNext j2len hent hNE hnj hloN
            j hjlo hjc).2
        have hkbs : rowK j2len j ≤ bs := le_trans hkle hbs
        have hcond : ¬((bi, bi, bs) : Nat × Nat × Nat).2.2 < rowK j2len j := by
          show ¬bs < rowK j2len j
          omega
        rw [if_neg hcond]
        obtain ⟨hres, hents, hkeep⟩ := ih hgt' hcs' ((j, rowK j2len j) :: new)
          (by
            intro jk v hlk
            rw [lookupN] at hlk
            by_cases hj : jk = j
            · rw [if_pos hj] at hlk
              have hv : rowK j2len j = v := by
                injection hlk
              rw [hj, ← hv, rowK]
              exact entryOK_step a J lo hi iNext j2len hent hNE hnj hloN
                j hjlo (by omega) hjc
            · rw [if_neg hj] at hlk
              exact hnew jk v hlk)
        refine ⟨hres, hents, ?_⟩
        intro jk hjk
        rw [hkeep jk hjk, lookupN, if_neg (show ¬jk = j by omega)]

theorem runEnd_le_rowK_diag (a : Str) (J : List Char) (lo iNext : Nat)
    (j2len : List (Nat × Nat))
    (hG : lo < iNext → J.contains (charAt a (iNext - 1)) = false →
      ∃ d, lookupN j2len (iNext - 1) = some d ∧
        runEnd a J lo (iNext - 1) ≤ d)
    (hNE : ∀ jk v, lookupN j2len jk = some v → lo < iNext)
    (hnj : J.contains (charAt a iNext) = false)
    (hloN : lo ≤ iNext) :
    runEnd a J lo iNext ≤ rowK j2len iNext := by
  rw [rowK]
  by_cases hi0 : iNext = 0
  · subst hi0
    rw [if_pos rfl]
    rw [runEnd]
    split <;> omega
  · rw [if_neg hi0]
    obtain ⟨m, hm⟩ : ∃ m, iNext = m + 1 := ⟨iNext - 1, by omega⟩
    subst hm
    have hsub : m + 1 - 1 = m := by omega
    rw [hsub]
    have hre : runEnd a J lo (m + 1) = runEnd a J lo m + 1 :=
      runEnd_succ_eq a J lo m hloN hnj
    cases hlk : lookupN j2len m with
    | none =>
        simp only [Option.getD_none]
        rw [hre]
        have hm0 : runEnd a J lo m = 0 := by
          cases hj1 : J.contains (charAt a m) with
          | true => exact runEnd_of_junk a J lo m hj1
          | false =>
              by_cases hlt : lo < m + 1
              · exfalso
                obtain ⟨d, hd, -⟩ := hG hlt (by rw [hsub]; exact hj1)
                rw [hsub] at hd
                rw [hd] at hlk
                cases hlk
              · exact runEnd_lt_lo a J lo m (by omega)
        omega
    | some vD =>
        simp only [Option.getD_some]
        rw [hre]
        cases hj1 : J.contains (charAt a m) with
        | true =>
            rw [runEnd_of_junk a J lo m hj1]
            omega
        | false =>
            have hlt : lo < m + 1 := hNE m vD hlk
            obtain ⟨d, hd, hrd⟩ := hG hlt (by rw [hsub]; exact hj1)
            rw [hsub] at hd hrd
            rw [hd] at hlk
            have hdv : d = vD := by injection hlk
            omega

theorem rowInv_assemble (a : Str) (J : List Char) (lo hi iNext : Nat)
    (j2len newA : List (Nat × Nat)) (Bb : List Nat) (d₂ bs₂ : Nat)
    (hent : ∀ jk v, lookupN j2len jk = some v →
      EntryOK a J lo hi (iNext - 1) jk v)
    (hNE : ∀ jk v, lookupN j2len jk = some v → lo < iNext)
    (hnj : J.contains (charAt a iNext) = false)
    (hloN : lo ≤ iNext) (hNhi : iNext < hi)
    (hAent : ∀ jk v, lookupN newA jk = some v → EntryOK a J lo hi iNext jk v)
    (hd2lo : lo ≤ d₂) (hd2hi : d₂ + bs₂ ≤ iNext + 1)
    (hbz : bs₂ = 0 → d₂ = lo)
    (hDnew : ∀ r, lo ≤ r → r < iNext + 1 → runEnd a J lo r ≤ bs₂)
    (hRk : runEnd a J lo iNext ≤ rowK j2len iNext)
    (hBgt : ∀ j ∈ Bb, iNext < j)
    (hBc : ∀ j ∈ Bb, charAt a j = charAt a iNext) :
    RowInv a J lo hi (iNext + 1)
      (flmRow j2len lo hi iNext Bb
        ((iNext, rowK j2len iNext) :: newA) (d₂, d₂, bs₂)).1
      (flmRow j2len lo hi iNext Bb
        ((iNext, rowK j2len iNext) :: newA) (d₂, d₂, bs₂)).2 := by
  have hkOK : EntryOK a J lo hi iNext iNext (rowK j2len iNext) := by
    rw [rowK]
    exact entryOK_step a J lo hi iNext j2len hent hNE hnj hloN iNext
      hloN hNhi rfl
  have hbs : runEnd a J lo iNext ≤ bs₂ := hDnew iNext hloN (by omega)
  obtain ⟨hres, hents, hkeep⟩ := flmRow_post a J lo hi iNext j2len d₂ bs₂
    hbs hent hNE hnj hloN Bb hBgt hBc ((iNext, rowK j2len iNext) :: newA)
    (by
      intro jk v hlk
      rw [lookupN] at hlk
      by_cases hj : jk = iNext
      · rw [if_pos hj] at hlk
        have hv : rowK j2len iNext = v := by injection hlk
        rw [hj, ← hv]
        exact hkOK
      · rw [if_neg hj] at hlk
        exact hAent jk v hlk)
  rw [hres]
  have hsub : iNext + 1 - 1 = iNext := by omega
  refine ⟨rfl, hd2lo, ?_, hbz, ?_, ?_, ?_, ?_⟩
  · show d₂ + bs₂ ≤ iNext + 1
    exact hd2hi
  · intro r hr1 hr2
    exact hDnew r hr1 hr2
  · intro _ _
    refine ⟨rowK j2len iNext, ?_, ?_⟩
    · rw [hsub, hkeep iNext (le_refl iNext), lookupN, if_pos rfl]
    · rw [hsub]
      exact hRk
  · intro jk v hlk
    rw [hsub]
    exact hents jk v hlk
  · intro jk v _
    omega

theorem rowInv_step (a : Str) (lo hi iNext : Nat)
    (j2len : List (Nat × Nat)) (best : Nat × Nat × Nat)
    (hinv : RowInv a (bpopular a) lo hi iNext j2len best)
    (hloN : lo ≤ iNext) (hNhi : iNext < hi) (hhi : hi ≤ a.length) :
    RowInv a (bpopular a) lo hi (iNext + 1)
      (flmRow j2len lo hi iNext
        (lookupIdx (chain_b a).1 (charAt a iNext)) [] best).1
      (flmRow j2len lo hi iNext
        (lookupIdx (chain_b a).1 (charAt a iNext)) [] best).2 := by
  obtain ⟨bi, bj, bs⟩ := best
  obtain ⟨hdiag, hblo, hbhi, hbz, hbd, hG, hent, hNE⟩ := hinv
  have hd : bi = bj := hdiag
  subst hd
  by_cases hjs : lookupIdx (chain_b a).1 (charAt a iNext) = []
  · rw [hjs, flmRow]
    have hjunk : (bpopular a).contains (charAt a iNext) = true := by
      cases hc : (bpopular a).contains (charAt a iNext) with
      | false =>
          exfalso
          have := chainB_complete a iNext (by omega) hc
          rw [hjs] at this
          cases this
      | true => rfl
    refine ⟨rfl, hblo, ?_, hbz, ?_, ?_, ?_, ?_⟩
    · show bi + bs ≤ iNext + 1
      have : bi + bs ≤ iNext := hbhi
      omega
    · intro r hr1 hr2
      by_cases hr : r < iNext
      · exact hbd r hr1 hr
      · have hreq : r = iNext := by omega
        rw [hreq, runEnd_of_junk _ _ _ _ hjunk]
        omega
    · intro _ hcontra
      rw [show iNext + 1 - 1 = iNext by omega, hjunk] at hcontra
      cases hcontra
    · intro jk v hlk
      rw [lookupN] at hlk
      cases hlk
    · intro jk v hlk
      rw [lookupN] at hlk
      cases hlk
  · have hnj : (bpopular a).contains (charAt a iNext) = false :=
      chainB_nonpopular a _ hjs
    have hmemN : iNext ∈ lookupIdx (chain_b a).1 (charAt a iNext) :=
      chainB_complete a iNext (by omega) hnj
    obtain ⟨A, Bb, hAB, hAlt, hBgt⟩ :=
      sorted_mem_split _ iNext (chainB_sorted a (charAt a iNext)) hmemN
    have hsound : ∀ j ∈ lookupIdx (chain_b a).1 (charAt a iNext),
        charAt a j = charAt a iNext := by
      intro j hj
      have hocc := chainB_mem a _ j hj
      have := occFrom_sound a (charAt a iNext) 0 j hocc
      simpa [charAt] using this
    rw [hAB]
    rw [flmRow_append _ _ _ _ A (iNext :: Bb)
      (fun j hj => lt_trans (hAlt j hj) hNhi)]
    obtain ⟨hA2, hAent⟩ := flmRow_pre a (bpopular a) lo hi iNext j2len bi bs
      hbd hent hNE hnj hloN hNhi A hAlt
      (fun j hj => hsound j (by rw [hAB]; exact List.mem_append_left _ hj))
      []
      (by intro jk v hlk; rw [lookupN] at hlk; cases hlk)
    rw [hA2, flmRow]
    rw [if_neg (show ¬iNext < lo by omega), if_neg (show ¬hi ≤ iNext by omega)]
    have hRk : runEnd a (bpopular a) lo iNext ≤ rowK j2len iNext :=
      runEnd_le_rowK_diag a (bpopular a) lo iNext j2len hG hNE hnj hloN
    have hkOK : EntryOK a (bpopular a) lo hi iNext iNext
        (rowK j2len iNext) := by
      rw [rowK]
      exact entryOK_step a (bpopular a) lo hi iNext j2len hent hNE hnj hloN
        iNext hloN hNhi rfl
    have hBc : ∀ j ∈ Bb, charAt a j = charAt a iNext :=
      fun j hj => hsound j (by
        rw [hAB]
        exact List.mem_append_right _ (List.mem_cons_of_mem _ hj))
    by_cases hup : ((bi, bi, bs) : Nat × Nat × Nat).2.2 < rowK j2len iNext
    · rw [if_pos hup]
      have hklo : rowK j2len iNext + lo ≤ iNext + 1 := hkOK.2.2.2.1
      refine rowInv_assemble a (bpopular a) lo hi iNext j2len _ Bb
        (iNext + 1 - rowK j2len iNext) (rowK j2len iNext)
        hent hNE hnj hloN hNhi hAent (by omega) (by omega) ?_ ?_ hRk hBgt hBc
      · intro h0
        have h1 : 1 ≤ rowK j2len iNext := hkOK.2.2.1
        omega
      · intro r hr1 hr2
        by_cases hr : r < iNext
        · have := hbd r hr1 hr
          have hbsk : bs < rowK j2len iNext := hup
          omega
        · have hreq : r = iNext := by omega
          rw [hreq]
          exact hRk
    · rw [if_neg hup]
      have hkbs : rowK j2len iNext ≤ bs := by
        have : ¬bs < rowK j2len iNext := hup
        omega
      refine rowInv_assemble a (bpopular a) lo hi iNext j2len _ Bb
        bi bs hent hNE hnj hloN hNhi hAent hblo (by
          have : bi + bs ≤ iNext := hbhi
          omega) hbz ?_ hRk hBgt hBc
      intro r hr1 hr2
      by_cases hr : r < iNext
      · exact hbd r hr1 hr
      · have hreq : r = iNext := by omega
        rw [hreq]
        exact le_trans hRk hkbs

theorem rowInv_init (a : Str) (J : List Char) (lo hi : Nat) :
    RowInv a J lo hi lo [] (lo, lo, 0) := by
  refine ⟨rfl, le_refl lo, ?_, fun _ => rfl, ?_, ?_, ?_, ?_⟩
  · show lo + 0 ≤ lo
    omega
  · intro r h1 h2
    exact absurd h2 (by omega)
  · intro h _
    exact absurd h (by omega)
  · intro jk v h
    rw [lookupN] at h
    cases h
  · intro jk v h
    rw [lookupN] at h
    cases h

theorem flmLoop_inv (a : Str) (lo hi : Nat) (hhi : hi ≤ a.length) :
    ∀ cnt iNext j2len best,
      RowInv a (bpopular a) lo hi iNext j2len best →
      lo ≤ iNext → iNext + cnt = hi →
      ∃ d bs, flmLoop a (chain_b a).1 lo hi cnt iNext j2len best = (d, d, bs) ∧
        lo ≤ d ∧ d + bs ≤ hi ∧ (bs = 0 → d = lo) ∧
        ∀ r, lo ≤ r → r < hi → runEnd a (bpopular a) lo r ≤ bs := by
  intro cnt
  induction cnt with
  | zero =>
      intro iNext j2len best hinv hlo hcnt
      obtain ⟨bi, bj, bs⟩ := best
      obtain ⟨hdiag, hblo, hbhi, hbz, hbd, -, -, -⟩ := hinv
      have hd : bi = bj := hdiag
      subst hd
      rw [flmLoop]
      have hiN : iNext = hi := by omega
      refine ⟨bi, bs, rfl, hblo, ?_, hbz, ?_⟩
      · have hb : bi + bs ≤ iNext := hbhi
        omega
      · intro r h1 h2
        exact hbd r h1 (by omega)
  | succ cnt ih =>
      intro iNext j2len best hinv hlo hcnt
      rw [flmLoop]
      exact ih (iNext + 1) _ _
        (rowInv_step a lo hi iNext j2len best hinv hlo (by omega) hhi)
        (by omega) (by omega)

/-!  General lemmas: the four extension loops with the empty junk set
(`isjunk = None` leaves `bjunk` empty), on the diagonal (`a = b`, both
ranges `[lo, hi)`).  The two non-junk loops extend a diagonal match of
the same string over every equal — hence every — character, so any
diagonal best triple grows to cover the whole range; the two junk loops
never fire. -/

theorem extendLo_full (a : Str) (lo : Nat) :
    ∀ fuel d bs, lo ≤ d → d - lo < fuel →
      extendLo a a [] lo lo fuel (d, d, bs) = (lo, lo, bs + (d - lo)) := by
  intro fuel
  induction fuel with
  | zero =>
      intro d bs h1 h2
      omega
  | succ fuel ih =>
      intro d bs h1 h2
      rw [extendLo]
      by_cases hld : lo < d
      · rw [if_pos ⟨hld, hld, rfl, rfl⟩]
        rw [ih (d - 1) (bs + 1) (by omega) (by omega)]
        have harith : bs + 1 + (d - 1 - lo) = bs + (d - lo) := by omega
        rw [harith]
      · rw [if_neg (by rintro ⟨hc, -⟩; exact hld hc)]
        have hd : d = lo := by omega
        subst hd
        have harith : bs + (d - d) = bs := by omega
        rw [harith]

theorem extendHi_full (a : Str) (hi : Nat) :
    ∀ fuel d bs, d + bs ≤ hi → hi - (d + bs) < fuel →
      extendHi a a [] hi hi fuel (d, d, bs) = (d, d, hi - d) := by
  intro fuel
  induction fuel with
  | zero =>
      intro d bs h1 h2
      omega
  | succ fuel ih =>
      intro d bs h1 h2
      rw [extendHi]
      by_cases hlt : d + bs < hi
      · rw [if_pos ⟨hlt, hlt, rfl, rfl⟩]
        exact ih d (bs + 1) (by omega) (by omega)
      · rw [if_neg (by rintro ⟨hc, -⟩; exact hlt hc)]
        have hbs : bs = hi - d := by omega
        rw [hbs]

theorem extendLoJunk_nil (a b : Str) (alo blo : Nat) :
    ∀ fuel st, extendLoJunk a b [] alo blo fuel st = st := by
  intro fuel st
  obtain ⟨bi, bj, bs⟩ := st
  cases fuel with
  | zero => rfl
  | succ fuel =>
      rw [extendLoJunk, if_neg ?_]
      rintro ⟨-, -, hc, -⟩
      cases hc

theorem extendHiJunk_nil (a b : Str) (ahi bhi : Nat) :
    ∀ fuel st, extendHiJunk a b [] ahi bhi fuel st = st := by
  intro fuel st
  obtain ⟨bi, bj, bs⟩ := st
  cases fuel with
  | zero => rfl
  | succ fuel =>
      rw [extendHiJunk, if_neg ?_]
      rintro ⟨-, -, hc, -⟩
      cases hc

theorem flm_diag (a : Str) (lo hi : Nat) (hlo : lo ≤ hi)
    (hhi : hi ≤ a.length) :
    find_longest_match a a (chain_b a).1 [] lo hi lo hi =
      (lo, lo, hi - lo) := by
  obtain ⟨d0, bs0, hloop, hd0, hsum0, hz0, hD0⟩ :=
    flmLoop_inv a lo hi hhi (hi - lo) lo [] (lo, lo, 0)
      (rowInv_init a (bpopular a) lo hi) (le_refl lo) (by omega)
  rw [find_longest_match, hloop]
  rw [extendLo_full a lo _ d0 bs0 hd0 (by omega)]
  rw [extendHi_full a hi _ lo (bs0 + (d0 - lo)) (by omega) (by omega)]
  rw [extendLoJunk_nil, extendHiJunk_nil]

theorem matchesAux_diag (a : Str) (f lo hi : Nat) (hlo : lo ≤ hi)
    (hhi : hi ≤ a.length) (hf : 1 ≤ f) :
    matchesAux a a (chain_b a).1 (chain_b a).2 f lo hi lo hi = hi - lo := by
  obtain ⟨g, rfl⟩ : ∃ g, f = g + 1 := ⟨f - 1, by omega⟩
  rw [chain_b_snd]
  rw [matchesAux, flm_diag a lo hi hlo hhi]
  by_cases hlh : lo < hi
  · rw [if_neg (show ¬((lo, lo, hi - lo) : Nat × Nat × Nat).2.2 = 0 by
      show ¬hi - lo = 0
      omega)]
    rw [if_neg (show ¬(lo < ((lo, lo, hi - lo) : Nat × Nat × Nat).1 ∧
        lo < ((lo, lo, hi - lo) : Nat × Nat × Nat).2.1) from
        fun hc => absurd hc.1 (by omega))]
    rw [if_neg (show ¬(((lo, lo, hi - lo) : Nat × Nat × Nat).1 +
        ((lo, lo, hi - lo) : Nat × Nat × Nat).2.2 < hi ∧
        ((lo, lo, hi - lo) : Nat × Nat × Nat).2.1 +
        ((lo, lo, hi - lo) : Nat × Nat × Nat).2.2 < hi) from
        fun hc => absurd hc.1 (by
          show ¬lo + (hi - lo) < hi
          omega))]
    show (hi - lo) + 0 + 0 = hi - lo
    omega
  · rw [if_pos (show ((lo, lo, hi - lo) : Nat × Nat × Nat).2.2 = 0 by
      show hi - lo = 0
      omega)]
    omega

theorem ratio_self (s : Str) : ratio s s = 1 := by
  rw [ratio]
  by_cases hn : s.length + s.length = 0
  · rw [if_pos hn]
  · rw [if_neg hn]
    have hm : matchesTotal s s = s.length := by
      rw [matchesTotal]
      have := matchesAux_diag s (s.length + s.length + 1) 0 s.length
        (by omega) (le_refl _) (by omega)
      simpa using this
    rw [hm]
    have hcast : ((s.length + s.length : Nat) : ℚ) ≠ 0 := by
      exact_mod_cast hn
    rw [div_eq_one_iff_eq hcast]
    push_cast
    ring

theorem best_match_def (corpus : List (Str × Str)) (user : Str) :
    best_match corpus user =
      match pyMax (scoresList corpus user) with
      | none => .error .valueError
      | some m =>
          .ok ((corpus.getD (indexOfQ (scoresList corpus user) m) dummyRec).1,
               (corpus.getD (indexOfQ (scoresList corpus user) m) dummyRec).2,
               m) := rfl

theorem scoresList_ne_nil (corpus : List (Str × Str)) (user : Str)
    (h : corpus ≠ []) : scoresList corpus user ≠ [] := by
  simp [scoresList, h]

theorem scoresList_length (corpus : List (Str × Str)) (user : Str) :
    (scoresList corpus user).length = corpus.length := by
  simp [scoresList]

theorem scoresList_getD (corpus : List (Str × Str)) (user : Str) (j : Nat)
    (hj : j < corpus.length) :
    (scoresList corpus user).getD j 0 = scoreOf corpus user j := by
  have hj' : j < (scoresList corpus user).length := by
    rw [scoresList_length]; exact hj
  rw [scoresList, scoreOf]
  rw [List.getD_eq_getElem _ _ (by rw [scoresList] at hj'; exact hj'),
    List.getElem_map, List.getD_eq_getElem _ _ hj]

theorem exists_best_match_ok (corpus : List (Str × Str)) (user : Str)
    (h : corpus ≠ []) :
    ∃ q a sc, best_match corpus user = .ok (q, a, sc) := by
  obtain ⟨m, hm⟩ := pyMax_isSome _ (scoresList_ne_nil corpus user h)
  exact ⟨_, _, m, by rw [best_match_def, hm]⟩

/-!  Claims. -/

/-- C1: on a non-empty corpus, `best_match` returns the question, the
answer and the score of the record whose similarity score against the
normalized query is maximal; among records attaining the maximal score,
the first in corpus order is returned. -/
theorem best_match_maximal (corpus : List (Str × Str)) (user : Str)
    (h : corpus ≠ []) :
    ∃ i, i < corpus.length ∧
      best_match corpus user =
        .ok ((corpus.getD i dummyRec).1, (corpus.getD i dummyRec).2,
             scoreOf corpus user i) ∧
      (∀ j, j < corpus.length → scoreOf corpus user j ≤ scoreOf corpus user i) ∧
      (∀ j, j < i → scoreOf corpus user j < scoreOf corpus user i) := by
  obtain ⟨m, hm⟩ := pyMax_isSome _ (scoresList_ne_nil corpus user h)
  obtain ⟨hmem, hle⟩ := pyMax_spec _ _ hm
  have hilen : indexOfQ (scoresList corpus user) m <
      (scoresList corpus user).length := indexOfQ_lt_length _ _ hmem
  have hlen := scoresList_length corpus user
  have hsc : scoreOf corpus user (indexOfQ (scoresList corpus user) m) = m := by
    rw [← scoresList_getD corpus user _ (by omega), indexOfQ_getD _ _ hmem]
  refine ⟨indexOfQ (scoresList corpus user) m, by omega, ?_, ?_, ?_⟩
  · rw [best_match_def, hm, hsc]
  · intro j hj
    have hjmem : (scoresList corpus user).getD j 0 ∈ scoresList corpus user := by
      rw [List.getD_eq_getElem _ _ (by omega)]
      exact List.getElem_mem _
    have := hle _ hjmem
    rw [scoresList_getD corpus user j hj] at this
    rw [hsc]
    exact this
  · intro j hj
    have hne := indexOfQ_earlier (scoresList corpus user) m j hj
    rw [scoresList_getD corpus user j (by omega)] at hne
    have hjle : scoreOf corpus user j ≤ m := by
      have hjmem : (scoresList corpus user).getD j 0 ∈ scoresList corpus user := by
        rw [List.getD_eq_getElem _ _ (by omega)]
        exact List.getElem_mem _
      have := hle _ hjmem
      rw [scoresList_getD corpus user j (by omega)] at this
      exact this
    rw [hsc]
    exact lt_of_le_of_ne hjle hne

/-- Witness for C1 at a concrete one-record corpus. -/
theorem best_match_maximal_witness :
    ([(("budget".toList, "ok".toList) : Str × Str)] ≠ []) ∧
    (∃ i, i < [(("budget".toList, "ok".toList) : Str × Str)].length ∧
      best_match [("budget".toList, "ok".toList)] ("budget".toList) =
        .ok (([("budget".toList, "ok".toList)].getD i dummyRec).1,
             ([("budget".toList, "ok".toList)].getD i dummyRec).2,
             scoreOf [("budget".toList, "ok".toList)] ("budget".toList) i) ∧
      (∀ j, j < [(("budget".toList, "ok".toList) : Str × Str)].length →
        scoreOf [("budget".toList, "ok".toList)] ("budget".toList) j ≤
          scoreOf [("budget".toList, "ok".toList)] ("budget".toList) i) ∧
      (∀ j, j < i →
        scoreOf [("budget".toList, "ok".toList)] ("budget".toList) j <
          scoreOf [("budget".toList, "ok".toList)] ("budget".toList) i)) :=
  ⟨by decide, best_match_maximal [("budget".toList, "ok".toList)]
    ("budget".toList) (by decide)⟩

/-- C2: the lexical scorer returns `2 * matches / (len(a) + len(b))`
where `matches` is the total size of the matching blocks of the gestalt
pattern-matching algorithm (`matchesTotal`, the faithful translation of
`SequenceMatcher.get_matching_blocks`), and scoring any string against
itself — in particular a normalized query — yields exactly 1; the
scorer is a pure function of its two arguments.  The self-similarity
holds for all strings, including those at least 200 characters long
where the autojunk heuristic purges popular characters from the index
map: with `isjunk = None` the junk set of the extension loops is empty,
so the non-junk extension loops extend the diagonal match over popular
characters too and recover the full range. -/
theorem ratio_gestalt_spec (a b s : Str) :
    ratio a b = (if a.length + b.length = 0 then 1
      else (2 * (matchesTotal a b : ℚ)) /
        (((a.length + b.length : Nat) : ℚ))) ∧
    ratio (cleanQuery s) (cleanQuery s) = 1 :=
  ⟨rfl, ratio_self (cleanQuery s)⟩

/-- C3 counterexample: on the empty corpus and the query `"x"`, the
retriever fails with the untyped builtin `ValueError` escaping from
`max(scores)`, not with the typed `EmptyCorpusError` of the claim. -/
theorem best_match_empty_untyped :
    best_match ([] : List (Str × Str)) ("x".toList) =
      .error .valueError ∧
    best_match ([] : List (Str × Str)) ("x".toList) ≠
      .error .emptyCorpusError := by
  have h0 : best_match ([] : List (Str × Str)) ("x".toList) =
      .error .valueError := rfl
  refine ⟨h0, ?_⟩
  rw [h0]
  intro hcontra
  exact RetrievalError.noConfusion (Except.error.inj hcontra)

/-- C3 amended: for every query, `best_match` on the empty corpus fails
(the failure is not swallowed), but with the untyped builtin
`ValueError` raised by `max` on an empty sequence; no typed
`EmptyCorpusError` exists in the code. -/
theorem best_match_empty_raises (user : Str) :
    best_match ([] : List (Str × Str)) user = .error .valueError := rfl

/-- C4: the escape applied to the composed prompt before interpolation
into the Cortex query doubles every single quote, reversing it
(replacing each doubled quote by a single quote) recovers exactly the
original text, and the escaped text is what is interpolated into the
downstream query. -/
theorem escape_roundTrip (s : Str) :
    escapeQ s = doubleQuotes s ∧ unescapeQ (escapeQ s) = s ∧
    occursIn (escapeQ s) (cortexQuery s) :=
  ⟨escapeQ_eq_doubleQuotes s, unescape_escape s, ⟨sqlSeg1, sqlSeg2, rfl⟩⟩

/-- C5: the probe swallows every failure into `false`, and a turn run
with Cortex disabled appends exactly the fallback message — which
contains the literal matched question, the literal matched answer and
the explicit disabled notice — without invoking the completion
capability (the boolean of `processTurn` stays `false`). -/
theorem probe_failure_fallback (corpus : List (Str × Str)) (user : Str)
    (messages : List Turn) (complete : Str → Except Str Str)
    (h : corpus ≠ []) :
    (∀ (sp : Bool) (e : Str), check_cortex sp (.error e) = false) ∧
    ∃ q a sc, best_match corpus user = .ok (q, a, sc) ∧
      processTurn corpus false complete messages user =
        .ok (messages ++ [Turn.mk .user user, Turn.mk .assistant (fallback q a)], false) ∧
      occursIn q (fallback q a) ∧ occursIn a (fallback q a) ∧
      occursIn disabledTxt (fallback q a) := by
  refine ⟨fun sp e => by cases sp <;> rfl, ?_⟩
  obtain ⟨q, a, sc, hbm⟩ := exists_best_match_ok corpus user h
  refine ⟨q, a, sc, hbm, ?_, ?_, ?_, ?_⟩
  · simp only [processTurn, hbm]
    rw [List.append_assoc]
    rfl
  · rw [fallback]
    exact occursIn_append_right _ (occursIn_append_right _
      (occursIn_append_right _ (occursIn_last _ _)))
  · rw [fallback]
    exact occursIn_append_right _ (occursIn_last _ _)
  · rw [fallback]
    refine occursIn_append_left _ ?_
    exact ⟨"\n\n⚠ ".toList, ".".toList, by decide⟩

/-- Witness for C5 at a concrete corpus and turn. -/
theorem probe_failure_fallback_witness :
    ([(("budget".toList, "ok".toList) : Str × Str)] ≠ []) ∧
    ((∀ (sp : Bool) (e : Str), check_cortex sp (.error e) = false) ∧
    ∃ q a sc,
      best_match [("budget".toList, "ok".toList)] ("hi".toList) =
        .ok (q, a, sc) ∧
      processTurn [("budget".toList, "ok".toList)] false
          (fun _ => .ok []) [] ("hi".toList) =
        .ok ([] ++ [Turn.mk .user ("hi".toList), Turn.mk .assistant (fallback q a)],
             false) ∧
      occursIn q (fallback q a) ∧ occursIn a (fallback q a) ∧
      occursIn disabledTxt (fallback q a)) :=
  ⟨by decide, probe_failure_fallback [("budget".toList, "ok".toList)]
    ("hi".toList) [] (fun _ => .ok []) (by decide)⟩

/-- C6: the composed lexical prompt contains the matched question, the
matched answer, the confidence rendered with three decimal places, and
the user question; it embeds the refine-and-expand instruction and the
reason-independently instruction (both are always present, as
conditional wording — in particular the claim's two conditional cases
hold: with any score above 0.60 the refine instruction is embedded, and
with any score at most 0.60 the reason instruction is embedded). -/
theorem qa_context_contents (q a : Str) (score : ℚ) (prompt : Str) :
    occursIn q (qa_context q a score prompt) ∧
    occursIn a (qa_context q a score prompt) ∧
    occursIn (formatQ3 score) (qa_context q a score prompt) ∧
    occursIn prompt (qa_context q a score prompt) ∧
    occursIn refineTxt (qa_context q a score prompt) ∧
    occursIn reasonTxt (qa_context q a score prompt) := by
  rw [qa_context]
  refine ⟨?_, ?_, ?_, ?_, ?_, ?_⟩
  · exact occursIn_append_right _ (occursIn_append_right _
      (occursIn_append_right _ (occursIn_append_right _
        (occursIn_append_right _ (occursIn_append_right _
          (occursIn_append_right _ (occursIn_last _ _)))))))
  · exact occursIn_append_right _ (occursIn_append_right _
      (occursIn_append_right _ (occursIn_append_right _
        (occursIn_append_right _ (occursIn_last _ _)))))
  · exact occursIn_append_right _ (occursIn_append_right _
      (occursIn_append_right _ (occursIn_last _ _)))
  · exact occursIn_append_right _ (occursIn_last _ _)
  · refine occursIn_append_left _ ?_
    rw [ctxSeg5]
    exact occursIn_append_right _ (occursIn_append_right _
      (occursIn_append_right _ (occursIn_last _ _)))
  · refine occursIn_append_left _ ?_
    rw [ctxSeg5]
    exact occursIn_append_right _ (occursIn_last _ _)

/-- C10: the confidence branching of the lexical prompt is conditional
wording inside one fixed template, not a selection between prompts: for
any two scores the composed prompts share the same prefix and the same
suffix around the rendered score, and that fixed suffix contains both
the refine instruction and the reason-independently instruction. -/
theorem qa_context_fixed_template (q a : Str) (s₁ s₂ : ℚ) (prompt : Str) :
    ∃ pre suf,
      qa_context q a s₁ prompt = pre ++ formatQ3 s₁ ++ suf ∧
      qa_context q a s₂ prompt = pre ++ formatQ3 s₂ ++ suf ∧
      occursIn refineTxt suf ∧ occursIn reasonTxt suf := by
  refine ⟨ctxSeg1 ++ q ++ ctxSeg2 ++ a ++ ctxSeg3,
    ctxSeg4 ++ prompt ++ ctxSeg5, ?_, ?_, ?_, ?_⟩
  · rw [qa_context]
    simp [List.append_assoc]
  · rw [qa_context]
    simp [List.append_assoc]
  · refine occursIn_append_left _ ?_
    rw [ctxSeg5]
    exact occursIn_append_right _ (occursIn_append_right _
      (occursIn_append_right _ (occursIn_last _ _)))
  · refine occursIn_append_left _ ?_
    rw [ctxSeg5]
    exact occursIn_append_right _ (occursIn_last _ _)

/-- C7: a completion-service failure during a turn is caught and
converted into an assistant message carrying the error prefix, appended
after the user message: the conversation grows by exactly one user
entry and one assistant entry. -/
theorem completion_failure_caught (corpus : List (Str × Str))
    (user e : Str) (messages : List Turn) (h : corpus ≠ []) :
    ∃ q a sc, best_match corpus user = .ok (q, a, sc) ∧
      processTurn corpus true (fun _ => .error e) messages user =
        .ok (messages ++ [Turn.mk .user user, Turn.mk .assistant (error_msg e)], true) ∧
      error_msg e = "❌ Cortex Error: ".toList ++ e ∧
      (messages ++ [Turn.mk .user user, Turn.mk .assistant (error_msg e)]).length =
        messages.length + 2 := by
  obtain ⟨q, a, sc, hbm⟩ := exists_best_match_ok corpus user h
  refine ⟨q, a, sc, hbm, ?_, rfl, by simp⟩
  simp only [processTurn, hbm]
  rw [List.append_assoc]
  rfl

/-- Witness for C7 at a concrete corpus and turn. -/
theorem completion_failure_caught_witness :
    ([(("budget".toList, "ok".toList) : Str × Str)] ≠ []) ∧
    (∃ q a sc,
      best_match [("budget".toList, "ok".toList)] ("hi".toList) =
        .ok (q, a, sc) ∧
      processTurn [("budget".toList, "ok".toList)] true
          (fun _ => .error ("boom".toList)) [] ("hi".toList) =
        .ok ([] ++ [Turn.mk .user ("hi".toList),
              Turn.mk .assistant (error_msg ("boom".toList))], true) ∧
      error_msg ("boom".toList) = "❌ Cortex Error: ".toList ++ "boom".toList ∧
      ([] ++ [Turn.mk .user ("hi".toList),
        Turn.mk .assistant (error_msg ("boom".toList))] : List Turn).length =
        ([] : List Turn).length + 2) :=
  ⟨by decide, completion_failure_caught [("budget".toList, "ok".toList)]
    ("hi".toList) ("boom".toList) [] (by decide)⟩

/-- C8: every record produced by `load_qa` is the string coercion of a
source row with leading and trailing whitespace removed from both
fields; stripping a loaded record again changes nothing (the loader's
normalization is an invariant of the loaded, immutable records). -/
theorem load_qa_normalized (rows : List (CellValue × CellValue))
    (rec : Str × Str) (h : rec ∈ load_qa rows) :
    (∃ src ∈ rows, rec = (pyStrip (pyStr src.1), pyStrip (pyStr src.2))) ∧
    pyStrip rec.1 = rec.1 ∧ pyStrip rec.2 = rec.2 := by
  rw [load_qa] at h
  obtain ⟨src, hsrc, hmap⟩ := List.mem_map.1 h
  refine ⟨⟨src, hsrc, hmap.symm⟩, ?_, ?_⟩
  · rw [← hmap]
    exact pyStrip_pyStrip _
  · rw [← hmap]
    exact pyStrip_pyStrip _

/-- Witness for C8 at a concrete row with surrounding whitespace. -/
theorem load_qa_normalized_witness :
    (("po".toList, "approved".toList) ∈
      load_qa [(CellValue.text ("  po \t".toList),
                CellValue.text (" approved".toList))]) ∧
    ((∃ src ∈ [(CellValue.text ("  po \t".toList),
                CellValue.text (" approved".toList))],
        (("po".toList, "approved".toList) : Str × Str) =
          (pyStrip (pyStr src.1), pyStrip (pyStr src.2))) ∧
      pyStrip ("po".toList, "approved".toList).1 =
        ("po".toList, "approved".toList).1 ∧
      pyStrip ("po".toList, "approved".toList).2 =
        ("po".toList, "approved".toList).2) :=
  ⟨by decide, load_qa_normalized _ _ (by decide)⟩

/-- C9: the retrieval is pure with respect to the corpus and performs
exactly one scorer evaluation per record: the instrumented run returns
the unchanged corpus, the count `corpus.length`, and the same result as
`best_match`. -/
theorem retrieval_frame (corpus : List (Str × Str)) (user : Str) :
    best_matchInstr corpus user =
      (best_match corpus user, corpus, corpus.length) := by
  have hinstr : ∀ l : List (Str × Str),
      scoresInstr (cleanQuery user) l =
        (l.map (fun r => ratio (cleanQuery user) (pyLower r.1)), l, l.length) := by
    intro l
    induction l with
    | nil => rfl
    | cons r rest ih => simp [scoresInstr, ih]
  rw [best_matchInstr, hinstr, best_match_def, scoresList]

end ProcureFlow
